import Mathlib

/-!
Verification of the Go board-state engine in `movecat.py` (class `GoGameAnalyzer`).

The engine keeps an N×N grid of cells (empty / black / white), a move history and
a simple ko marker.  We embed the grid as a function `Nat → Nat → Cell` masked to
`empty` outside the board (every read in the source is bounds-guarded), translate
the breadth-first group search, capture handling, move application and move
classification, and prove the specified properties about them.
-/

namespace Movecat

/-- A cell of the board: the characters `'.'`, `'b'`, `'w'` of the source. -/
inductive Cell where
  | empty : Cell
  | black : Cell
  | white : Cell
deriving DecidableEq, Repr

/-- A board: its size `N` and the grid contents.  Reads outside `[0,N)×[0,N)`
yield `empty`; the source never performs such reads. -/
structure Board where
  size : Nat
  cells : Nat → Nat → Cell

/-- Read a cell, masking out-of-range coordinates to `empty`. -/
def cellAt (b : Board) (r c : Nat) : Cell :=
  if r < b.size ∧ c < b.size then b.cells r c else Cell.empty

/-- Write a cell (`self.board[r][c] = v`). -/
def setCell (b : Board) (r c : Nat) (v : Cell) : Board :=
  { b with cells := fun r' c' => if r' = r ∧ c' = c then v else b.cells r' c' }

/-- Pointwise effect of the removal loop `for gr, gc in group: self.board[gr][gc] = '.'`. -/
def removeStones (b : Board) (g : List (Nat × Nat)) : Board :=
  { b with cells := fun r c => if (r, c) ∈ g then Cell.empty else b.cells r c }

/-- `'w' if color == 'b' else 'b'`. -/
def opponent (color : Cell) : Cell :=
  if color = Cell.black then Cell.white else Cell.black

/-- `_get_neighbors(r, c)` (orthogonal only): the in-bounds cells at the four
offsets `(0,1), (0,-1), (1,0), (-1,0)`, in that order. -/
def neighborsOf (n : Nat) (r c : Nat) : List (Nat × Nat) :=
  [((0 : Int), (1 : Int)), (0, -1), (1, 0), (-1, 0)].filterMap fun d =>
    if 0 ≤ (r : Int) + d.1 ∧ (r : Int) + d.1 < (n : Int) ∧
        0 ≤ (c : Int) + d.2 ∧ (c : Int) + d.2 < (n : Int) then
      some (((r : Int) + d.1).toNat, ((c : Int) + d.2).toNat)
    else
      none

theorem cellAt_setCell (b : Board) (r c : Nat) (v : Cell) (r' c' : Nat) :
    cellAt (setCell b r c v) r' c' =
      if r' = r ∧ c' = c ∧ r < b.size ∧ c < b.size then v else cellAt b r' c' := by
  unfold cellAt setCell
  dsimp only
  by_cases h2 : r' = r ∧ c' = c
  · obtain ⟨rfl, rfl⟩ := h2
    by_cases hb : r' < b.size ∧ c' < b.size
    · simp [hb]
    · simp [hb]
  · rw [if_neg (show ¬(r' = r ∧ c' = c ∧ r < b.size ∧ c < b.size) from
        fun hh => h2 ⟨hh.1, hh.2.1⟩)]
    by_cases hb : r' < b.size ∧ c' < b.size
    · rw [if_pos hb, if_pos hb, if_neg h2]
    · rw [if_neg hb, if_neg hb]

theorem size_setCell (b : Board) (r c : Nat) (v : Cell) : (setCell b r c v).size = b.size := rfl

theorem cellAt_removeStones (b : Board) (g : List (Nat × Nat)) (r c : Nat) :
    cellAt (removeStones b g) r c =
      if (r, c) ∈ g ∧ r < b.size ∧ c < b.size then Cell.empty else cellAt b r c := by
  unfold cellAt removeStones
  by_cases h1 : r < b.size ∧ c < b.size <;> by_cases h2 : (r, c) ∈ g <;> simp [h1, h2]

theorem size_removeStones (b : Board) (g : List (Nat × Nat)) :
    (removeStones b g).size = b.size := rfl

/-- A colored cell is in bounds (out-of-range reads are `empty`). -/
theorem lt_size_of_cellAt_ne_empty {b : Board} {r c : Nat} (h : cellAt b r c ≠ Cell.empty) :
    r < b.size ∧ c < b.size := by
  by_contra hc
  exact h (by simp [cellAt, hc])

/-- Membership in the neighbor list, characterized arithmetically. -/
theorem mem_neighborsOf {n r c : Nat} {q : Nat × Nat} :
    q ∈ neighborsOf n r c ↔
      q.1 < n ∧ q.2 < n ∧
        ((q.1 = r ∧ (q.2 = c + 1 ∨ q.2 + 1 = c)) ∨ (q.2 = c ∧ (q.1 = r + 1 ∨ q.1 + 1 = r))) := by
  obtain ⟨q1, q2⟩ := q
  unfold neighborsOf
  rw [List.mem_filterMap]
  simp only [List.mem_cons, List.not_mem_nil, or_false]
  constructor
  · rintro ⟨d, hd, hf⟩
    rcases hd with rfl | rfl | rfl | rfl <;>
      (split at hf
       · rename_i hcond
         rw [Option.some_inj, Prod.mk.injEq] at hf
         obtain ⟨hf1, hf2⟩ := hf
         omega
       · cases hf)
  · rintro ⟨h1, h2, ⟨hq1, hq2 | hq2⟩ | ⟨hq2, hq1 | hq1⟩⟩
    · refine ⟨(0, 1), Or.inl rfl, ?_⟩
      rw [if_pos (by omega), Option.some_inj, Prod.mk.injEq]
      omega
    · refine ⟨(0, -1), Or.inr (Or.inl rfl), ?_⟩
      rw [if_pos (by omega), Option.some_inj, Prod.mk.injEq]
      omega
    · refine ⟨(1, 0), Or.inr (Or.inr (Or.inl rfl)), ?_⟩
      rw [if_pos (by omega), Option.some_inj, Prod.mk.injEq]
      omega
    · refine ⟨(-1, 0), Or.inr (Or.inr (Or.inr rfl)), ?_⟩
      rw [if_pos (by omega), Option.some_inj, Prod.mk.injEq]
      omega

/-- Neighborhood is symmetric between in-bounds cells. -/
theorem mem_neighborsOf_symm {n : Nat} {p q : Nat × Nat}
    (hp1 : p.1 < n) (hp2 : p.2 < n) (h : q ∈ neighborsOf n p.1 p.2) :
    p ∈ neighborsOf n q.1 q.2 := by
  rw [mem_neighborsOf] at h ⊢
  omega

/-! ## Breadth-first group search (`_find_group`) -/

/-- The running state of the `while q:` loop of `_find_group`: queue, visited
set, group, liberties.  The group is kept as a duplicate-free list (its
insertion order); the Python code builds it as a set but only ever uses
membership, size and iteration. -/
abbrev BfsState :=
  List (Nat × Nat) × Finset (Nat × Nat) × List (Nat × Nat) × Finset (Nat × Nat)

/-- The body of `for nr, nc in self._get_neighbors(curr_r, curr_c)` inside
`_find_group`: an empty neighbor becomes a liberty, an unvisited same-color
neighbor is marked visited, added to the group and enqueued. -/
def scanNb (b : Board) (color : Cell) (st : BfsState) (p : Nat × Nat) : BfsState :=
  if cellAt b p.1 p.2 = Cell.empty then
    (st.1, st.2.1, st.2.2.1, insert p st.2.2.2)
  else if cellAt b p.1 p.2 = color ∧ p ∉ st.2.1 then
    (st.1 ++ [p], insert p st.2.1, st.2.2.1 ++ [p], st.2.2.2)
  else
    st

/-- The `while q:` loop of `_find_group`, with fuel.  The loop pops the head of
the queue and scans its neighbors; `findGroup` supplies enough fuel for the
loop to run until the queue is empty (proved below). -/
def bfsLoop (b : Board) (color : Cell) :
    Nat → List (Nat × Nat) → Finset (Nat × Nat) → List (Nat × Nat) → Finset (Nat × Nat) →
    List (Nat × Nat) × Finset (Nat × Nat) × Finset (Nat × Nat)
  | 0, _, vis, grp, lib => (grp, lib, vis)
  | _ + 1, [], vis, grp, lib => (grp, lib, vis)
  | fuel + 1, curr :: rest, vis, grp, lib =>
    let st := (neighborsOf b.size curr.1 curr.2).foldl (scanNb b color) (rest, vis, grp, lib)
    bfsLoop b color fuel st.1 st.2.1 st.2.2.1 st.2.2.2

/-- `_find_group(r, c, color, visited)`: returns `none` (Python `None, None`)
when the cell is already visited or does not hold `color`; otherwise the BFS
group (as a list) and liberty set.  The second component is the updated
`visited` set (the Python code mutates the set passed in). -/
def findGroup (b : Board) (r c : Nat) (color : Cell) (visited : Finset (Nat × Nat)) :
    Option (List (Nat × Nat) × Finset (Nat × Nat)) × Finset (Nat × Nat) :=
  if (r, c) ∈ visited ∨ cellAt b r c ≠ color then
    (none, visited)
  else
    let res := bfsLoop b color (b.size * b.size + 1) [(r, c)]
      (insert (r, c) visited) [(r, c)] ∅
    (some (res.1, res.2.1), res.2.2)

/-! ## Whole-board census (`get_groups_and_liberties`) -/

/-- The result of `get_groups_and_liberties`: per color, a list of
(group, liberty count) pairs. -/
structure Census where
  black : List (List (Nat × Nat) × Nat)
  white : List (List (Nat × Nat) × Nat)
deriving DecidableEq

/-- Row-major list of all board coordinates, the iteration order of the census. -/
def allCoords (n : Nat) : List (Nat × Nat) :=
  (List.range n).flatMap fun r => (List.range n).map fun c => (r, c)

/-- The loop body of `get_groups_and_liberties` at one cell. -/
def censusStep (b : Board) (st : Finset (Nat × Nat) × Census) (p : Nat × Nat) :
    Finset (Nat × Nat) × Census :=
  if cellAt b p.1 p.2 ≠ Cell.empty ∧ p ∉ st.1 then
    match findGroup b p.1 p.2 (cellAt b p.1 p.2) st.1 with
    | (some (g, l), vis') =>
      if g ≠ [] then
        if cellAt b p.1 p.2 = Cell.black then
          (vis', { st.2 with black := st.2.black ++ [(g, l.card)] })
        else
          (vis', { st.2 with white := st.2.white ++ [(g, l.card)] })
      else (vis', st.2)
    | (none, vis') => (vis', st.2)
  else st

/-- `get_groups_and_liberties()`: scan every cell, starting a fresh group
search at each occupied, not-yet-visited cell. -/
def getGroupsAndLiberties (b : Board) : Census :=
  ((allCoords b.size).foldl (censusStep b) (∅, ⟨[], []⟩)).2

/-! ## Captures and move application -/

/-- The loop body of `_handle_captures` at one neighbor `nb`: if it holds an
opposing stone, search its group afresh; a group with no liberties is removed
from the grid and appended to the captured list. -/
def captureStep (color : Cell) (st : Board × List (Nat × Nat)) (nb : Nat × Nat) :
    Board × List (Nat × Nat) :=
  if cellAt st.1 nb.1 nb.2 = opponent color then
    match findGroup st.1 nb.1 nb.2 (opponent color) ∅ with
    | (some (g, l), _) => if g ≠ [] ∧ l = ∅ then (removeStones st.1 g, st.2 ++ g) else st
    | (none, _) => st
  else st

/-- `_handle_captures(r, c, color)`: walk the four neighbors of the placed
stone; every opposing-color neighbor group with no liberties is removed from
the grid and its stones appended to the captured list. -/
def handleCaptures (b : Board) (r c : Nat) (color : Cell) : Board × List (Nat × Nat) :=
  (neighborsOf b.size r c).foldl (captureStep color) (b, [])

/-- The full game state of a `GoGameAnalyzer`: grid, history, ko marker. -/
structure GameState where
  board : Board
  history : List ((Nat × Nat) × Cell)
  koPoint : Option (Nat × Nat)

/-- Placing the stone and resolving captures, the mutation sequence shared by
`play_move` and the simulation inside `analyze_move`. -/
def placeAndCapture (b : Board) (rn cn : Nat) (color : Cell) : Board × List (Nat × Nat) :=
  handleCaptures (setCell b rn cn color) rn cn color

/-- `play_move(r, c, color)`.  The first component is the Python control flow
(`ValueError` or normal return); the second is the state of `self` after the
call.  All three raises occur before any mutation, so the error branches
return the input state unchanged. -/
def playMove (s : GameState) (r c : Int) (color : Cell) : Except String Unit × GameState :=
  if ¬ (0 ≤ r ∧ r < (s.board.size : Int) ∧ 0 ≤ c ∧ c < (s.board.size : Int)) then
    (Except.error "Move is outside the board.", s)
  else if cellAt s.board r.toNat c.toNat ≠ Cell.empty then
    (Except.error "Intersection is already occupied.", s)
  else if s.koPoint = some (r.toNat, c.toNat) then
    (Except.error "Illegal ko capture.", s)
  else
    let pc := placeAndCapture s.board r.toNat c.toNat color
    (Except.ok (),
      { board := pc.1,
        history := s.history ++ [((r.toNat, c.toNat), color)],
        koPoint := if pc.2.length = 1 then pc.2.head? else none })

/-! ## Move classification (`analyze_move` and its helpers) -/

/-- `_check_pattern(r, c, color, patterns)`: true when every relative offset
lands on the board and holds a `color` stone. -/
def checkPattern (b : Board) (r c : Int) (color : Cell) (pats : List (Int × Int)) : Bool :=
  pats.all fun d =>
    decide (0 ≤ r + d.1 ∧ r + d.1 < (b.size : Int) ∧ 0 ≤ c + d.2 ∧ c + d.2 < (b.size : Int)) &&
      decide (cellAt b (r + d.1).toNat (c + d.2).toNat = color)

/-- `_is_peep(r, c, color)`: the target is flanked vertically or horizontally
by two opposing stones. -/
def isPeep (b : Board) (r c : Int) (color : Cell) : Bool :=
  (checkPattern b (r - 1) c (opponent color) [(0, 0)] &&
     checkPattern b (r + 1) c (opponent color) [(0, 0)]) ||
  (checkPattern b r (c - 1) (opponent color) [(0, 0)] &&
     checkPattern b r (c + 1) (opponent color) [(0, 0)])

/-- `_completes_bamboo_joint(r, c, color)`. -/
def completesBambooJoint (b : Board) (r c : Int) (color : Cell) : Bool :=
  (checkPattern b r c color [(0, -2), (1, 0), (1, -2)] ||
     checkPattern b r c color [(0, -2), (-1, 0), (-1, -2)]) ||
  (checkPattern b r c color [(0, 2), (1, 0), (1, 2)] ||
     checkPattern b r c color [(0, 2), (-1, 0), (-1, 2)]) ||
  (checkPattern b r c color [(-2, 0), (0, 1), (-2, 1)] ||
     checkPattern b r c color [(-2, 0), (0, -1), (-2, -1)]) ||
  (checkPattern b r c color [(2, 0), (0, 1), (2, 1)] ||
     checkPattern b r c color [(2, 0), (0, -1), (2, -1)])

/-- `_completes_empty_triangle(r, c, color)`. -/
def completesEmptyTriangle (b : Board) (r c : Int) (color : Cell) : Bool :=
  checkPattern b r c color [(0, -1), (-1, 0)] ||
  checkPattern b r c color [(-1, 0), (0, 1)] ||
  checkPattern b r c color [(0, 1), (1, 0)] ||
  checkPattern b r c color [(1, 0), (0, -1)]

/-- `_completes_tiger_mouth(r, c, color)`. -/
def completesTigerMouth (b : Board) (r c : Int) (color : Cell) : Bool :=
  checkPattern b r c color [(-1, -1), (1, -1)] ||
  checkPattern b r c color [(-1, 1), (1, 1)] ||
  checkPattern b r c color [(1, -1), (1, 1)] ||
  checkPattern b r c color [(-1, -1), (-1, 1)]

/-- The analysis mapping built by `analyze_move`.  The first nine fields are
the keys present from the start (the dict literal); the remaining fields are
only added after the suicide short-circuit, so they are `Option Bool`, `none`
meaning the key is absent from the returned dict. -/
structure Analysis where
  capture : Bool
  connects : Bool
  cuts : Bool
  atari : Bool
  self_atari : Bool
  suicide : Bool
  starts_ko : Bool
  takes_ko : Bool
  tenuki : Bool
  peep : Option Bool
  completes_empty_triangle : Option Bool
  completes_tiger_mouth : Option Bool
  completes_bamboo_joint : Option Bool
  one_point_jump : Option Bool
  knights_move : Option Bool
  diagonal : Option Bool
  throw_in : Option Bool
deriving DecidableEq

/-- The result of `analyze_move`: either the error dict or the analysis dict. -/
inductive AnalyzeResult where
  | failure : String → AnalyzeResult
  | found : Analysis → AnalyzeResult
deriving DecidableEq

/-- The group and liberty set of the placed stone after simulated capture
resolution (`temp_analyzer._find_group(r, c, color, set())` in `analyze_move`). -/
def ownGroupLibs (s : GameState) (rn cn : Nat) (color : Cell) :
    List (Nat × Nat) × Finset (Nat × Nat) :=
  ((findGroup (placeAndCapture s.board rn cn color).1 rn cn color ∅).1.getD ([], ∅))

/-- The dict literal of `analyze_move` (its state before the suicide
short-circuit check): `connects`, `cuts`, `atari`, `self_atari`, `starts_ko`,
`tenuki` start out false, `capture`, `suicide`, `takes_ko` are computed. -/
def baseAnalysis (s : GameState) (rn cn : Nat) (color : Cell) : Analysis :=
  { capture := decide ((placeAndCapture s.board rn cn color).2.length > 0)
    connects := false
    cuts := false
    atari := false
    self_atari := false
    suicide := decide ((ownGroupLibs s rn cn color).2.card = 0 ∧
      (placeAndCapture s.board rn cn color).2 = [])
    starts_ko := false
    takes_ko := decide (s.koPoint = some (rn, cn))
    tenuki := false
    peep := none
    completes_empty_triangle := none
    completes_tiger_mouth := none
    completes_bamboo_joint := none
    one_point_jump := none
    knights_move := none
    diagonal := none
    throw_in := none }

/-- The analysis dict after all fields past the suicide short-circuit have
been filled in.  `tempBoard2` is the simulation clone after captures; the
neighbor-group scans for `connects`/`cuts`, the pattern checks, and `tenuki`
read the live pre-move board, exactly as in the source. -/
def fullAnalysis (s : GameState) (rn cn : Nat) (color : Cell) : Analysis :=
  let pc := placeAndCapture s.board rn cn color
  let tempBoard2 := pc.1
  let capturedStones := pc.2
  let own := ownGroupLibs s rn cn color
  let ownLiberties := own.2.card
  let nbrs := neighborsOf s.board.size rn cn
  let selfAtari := decide (ownLiberties = 1 ∧ capturedStones = [])
  let groupsPair := nbrs.foldl
    (fun (acc : Finset (Finset (Nat × Nat)) × Finset (Finset (Nat × Nat))) nb =>
      if cellAt s.board nb.1 nb.2 = color then
        (insert (((findGroup s.board nb.1 nb.2 color ∅).1.getD ([], ∅)).1.toFinset) acc.1, acc.2)
      else if cellAt s.board nb.1 nb.2 = opponent color then
        (acc.1,
          insert (((findGroup s.board nb.1 nb.2 (opponent color) ∅).1.getD ([], ∅)).1.toFinset)
            acc.2)
      else acc)
    (∅, ∅)
  { baseAnalysis s rn cn color with
    self_atari := selfAtari
    atari := nbrs.any fun nb =>
      decide (cellAt tempBoard2 nb.1 nb.2 = opponent color) &&
        (let l := ((findGroup tempBoard2 nb.1 nb.2 (opponent color) ∅).1.getD ([], ∅)).2
         decide (l ≠ ∅) && decide (l.card = 1))
    connects := decide (groupsPair.1.card > 1)
    cuts := decide (groupsPair.2.card > 1)
    peep := some (isPeep s.board rn cn color)
    completes_empty_triangle := some (completesEmptyTriangle s.board rn cn color)
    completes_tiger_mouth := some (completesTigerMouth s.board rn cn color)
    completes_bamboo_joint := some (completesBambooJoint s.board rn cn color)
    one_point_jump := some
      (checkPattern s.board rn cn color [(-2, 0), (2, 0), (0, -2), (0, 2)] &&
        !checkPattern s.board rn cn color [(-1, 0), (1, 0), (0, -1), (0, 1)])
    knights_move := some
      (checkPattern s.board rn cn color
        [(1, 2), (1, -2), (-1, 2), (-1, -2), (2, 1), (2, -1), (-2, 1), (-2, -1)])
    diagonal := some (checkPattern s.board rn cn color [(1, 1), (1, -1), (-1, 1), (-1, -1)])
    throw_in := some (selfAtari &&
      decide (nbrs.length =
        (nbrs.filter fun nb => cellAt s.board nb.1 nb.2 = opponent color).length))
    starts_ko :=
      if capturedStones.length = 1 ∧ own.1.length = 1 ∧ ownLiberties = 1 then
        -- `own_liberties_set.pop()` on the (here one-element) liberty set yields
        -- its unique element, so comparing it with `captured_stones[0]` is
        -- membership of the captured stone in the liberty set.
        decide (own.2 ≠ ∅) &&
          match capturedStones with
          | [cap] => decide (cap ∈ own.2)
          | _ => false
      else false
    tenuki :=
      match s.history.getLast? with
      | some (lastMove, _) =>
        decide (((rn : Int) - lastMove.1) ^ 2 + ((cn : Int) - lastMove.2) ^ 2 > 50)
      | none => false }

/-- The body of `analyze_move` once the target is known to be legal: build the
dict, short-circuit on suicide, otherwise fill in the remaining fields. -/
def analyzeLegal (s : GameState) (rn cn : Nat) (color : Cell) : AnalyzeResult :=
  if (baseAnalysis s rn cn color).suicide then
    AnalyzeResult.found (baseAnalysis s rn cn color)
  else
    AnalyzeResult.found (fullAnalysis s rn cn color)

/-- `analyze_move(r, c, color)`: the error dict for out-of-bounds, occupied or
ko targets, otherwise the analysis dict. -/
def analyzeMoveCore (s : GameState) (r c : Int) (color : Cell) : AnalyzeResult :=
  if ¬ (0 ≤ r ∧ r < (s.board.size : Int) ∧ 0 ≤ c ∧ c < (s.board.size : Int)) then
    AnalyzeResult.failure "Move is outside the board."
  else if cellAt s.board r.toNat c.toNat ≠ Cell.empty then
    AnalyzeResult.failure "Intersection is already occupied."
  else if s.koPoint = some (r.toNat, c.toNat) then
    AnalyzeResult.failure "Illegal ko capture."
  else
    analyzeLegal s r.toNat c.toNat color

/-- `analyze_move` as a method call: its return value together with the state
of `self` afterwards.  The method only reads `self` — every mutation in its
body targets the `temp_board` clone — so the state component is the input
state. -/
def analyzeMove (s : GameState) (r c : Int) (color : Cell) : AnalyzeResult × GameState :=
  (analyzeMoveCore s r c color, s)

/-! ## Specification-side relations: same-color connectivity -/

/-- One connectivity step: `q` is an in-bounds neighbor of `p` holding `color`. -/
def StepColor (b : Board) (color : Cell) (p q : Nat × Nat) : Prop :=
  q ∈ neighborsOf b.size p.1 p.2 ∧ cellAt b q.1 q.2 = color

/-- A connectivity step that avoids a pre-visited set. -/
def StepAvoid (b : Board) (color : Cell) (avoid : Finset (Nat × Nat)) (p q : Nat × Nat) : Prop :=
  StepColor b color p q ∧ q ∉ avoid

/-- Same-color connectivity avoiding a pre-visited set. -/
def ReachAvoid (b : Board) (color : Cell) (avoid : Finset (Nat × Nat)) (p q : Nat × Nat) : Prop :=
  Relation.ReflTransGen (StepAvoid b color avoid) p q

/-- Same-color connectivity: `q` lies in the maximal 4-connected set of
`color` cells containing `p`. -/
def ReachColor (b : Board) (color : Cell) (p q : Nat × Nat) : Prop :=
  Relation.ReflTransGen (StepColor b color) p q

theorem reachAvoid_empty_iff {b : Board} {color : Cell} {p q : Nat × Nat} :
    ReachAvoid b color ∅ p q ↔ ReachColor b color p q := by
  constructor
  · intro h
    exact Relation.ReflTransGen.mono (fun _ _ hs => hs.1) h
  · intro h
    exact Relation.ReflTransGen.mono (fun _ _ hs => ⟨hs, Finset.not_mem_empty _⟩) h

theorem cellAt_of_reachColor {b : Board} {color : Cell} {p q : Nat × Nat}
    (hp : cellAt b p.1 p.2 = color) (h : ReachColor b color p q) :
    cellAt b q.1 q.2 = color := by
  induction h with
  | refl => exact hp
  | tail _ hstep _ => exact hstep.2

theorem cellAt_of_reachAvoid {b : Board} {color : Cell} {avoid : Finset (Nat × Nat)}
    {p q : Nat × Nat} (hp : cellAt b p.1 p.2 = color) (h : ReachAvoid b color avoid p q) :
    cellAt b q.1 q.2 = color := by
  induction h with
  | refl => exact hp
  | tail _ hstep _ => exact hstep.1.2

theorem not_avoid_of_reachAvoid {b : Board} {color : Cell} {avoid : Finset (Nat × Nat)}
    {p q : Nat × Nat} (hp : p ∉ avoid) (h : ReachAvoid b color avoid p q) : q ∉ avoid := by
  induction h with
  | refl => exact hp
  | tail _ hstep _ => exact hstep.2

theorem reachAvoid_of_reachColor_not_mem {b : Board} {color : Cell}
    {avoid : Finset (Nat × Nat)} {p q : Nat × Nat}
    (h : ReachColor b color p q) (hav : ∀ x, ReachColor b color p x → x ∉ avoid) :
    ReachAvoid b color avoid p q := by
  induction h with
  | refl => exact Relation.ReflTransGen.refl
  | tail hr hstep ih =>
    exact Relation.ReflTransGen.tail ih ⟨hstep, hav _ (Relation.ReflTransGen.tail hr hstep)⟩

theorem stepColor_symm {b : Board} {color : Cell} {p q : Nat × Nat}
    (hcol : color ≠ Cell.empty) (hp : cellAt b p.1 p.2 = color)
    (h : StepColor b color p q) : StepColor b color q p := by
  obtain ⟨hn, hq⟩ := h
  have hb := lt_size_of_cellAt_ne_empty (by rw [hp]; exact hcol)
  exact ⟨mem_neighborsOf_symm hb.1 hb.2 hn, hp⟩

theorem reachColor_symm {b : Board} {color : Cell} {p q : Nat × Nat}
    (hcol : color ≠ Cell.empty) (hp : cellAt b p.1 p.2 = color)
    (h : ReachColor b color p q) : ReachColor b color q p := by
  induction h with
  | refl => exact Relation.ReflTransGen.refl
  | tail hr hstep ih =>
    have hmid := cellAt_of_reachColor hp hr
    exact Relation.ReflTransGen.trans
      (Relation.ReflTransGen.single (stepColor_symm hcol hmid hstep)) ih

/-- Two cells of the same component have the same component. -/
theorem reachColor_congr {b : Board} {color : Cell} {p q : Nat × Nat}
    (hcol : color ≠ Cell.empty) (hp : cellAt b p.1 p.2 = color)
    (h : ReachColor b color p q) :
    ∀ x, ReachColor b color q x ↔ ReachColor b color p x := by
  intro x
  constructor
  · intro hx
    exact Relation.ReflTransGen.trans h hx
  · intro hx
    exact Relation.ReflTransGen.trans (reachColor_symm hcol hp h) hx

/-! ## Correctness of the BFS group search -/

/-- All in-bounds coordinates, for the termination measure. -/
def boardCells (n : Nat) : Finset (Nat × Nat) := Finset.range n ×ˢ Finset.range n

theorem mem_boardCells {n : Nat} {p : Nat × Nat} :
    p ∈ boardCells n ↔ p.1 < n ∧ p.2 < n := by
  simp [boardCells, Finset.mem_product]

/-- The fuel needed by the rest of the BFS loop. -/
def bfsMeasure (n : Nat) (q : List (Nat × Nat)) (vis : Finset (Nat × Nat)) : Nat :=
  (boardCells n \ vis).card + q.length

theorem bfsMeasure_insert {n : Nat} {q : List (Nat × Nat)} {vis : Finset (Nat × Nat)}
    {p : Nat × Nat} (hb : p.1 < n ∧ p.2 < n) (hv : p ∉ vis) :
    bfsMeasure n (q ++ [p]) (insert p vis) = bfsMeasure n q vis := by
  unfold bfsMeasure
  have h1 : boardCells n \ insert p vis = (boardCells n \ vis).erase p := by
    ext x
    simp only [Finset.mem_sdiff, Finset.mem_insert, Finset.mem_erase]
    tauto
  have h2 : p ∈ boardCells n \ vis := by
    rw [Finset.mem_sdiff, mem_boardCells]
    exact ⟨hb, hv⟩
  rw [h1, Finset.card_erase_of_mem h2, List.length_append]
  have := Finset.card_pos.mpr ⟨p, h2⟩
  simp only [List.length_cons, List.length_nil]
  omega

theorem scanNb_empty {b : Board} {color : Cell} {p : Nat × Nat}
    {q : List (Nat × Nat)} {vis : Finset (Nat × Nat)} {grp : List (Nat × Nat)}
    {lib : Finset (Nat × Nat)} (h : cellAt b p.1 p.2 = Cell.empty) :
    scanNb b color (q, vis, grp, lib) p = (q, vis, grp, insert p lib) := by
  unfold scanNb
  rw [if_pos h]

theorem scanNb_add {b : Board} {color : Cell} {p : Nat × Nat}
    {q : List (Nat × Nat)} {vis : Finset (Nat × Nat)} {grp : List (Nat × Nat)}
    {lib : Finset (Nat × Nat)} (h1 : ¬ cellAt b p.1 p.2 = Cell.empty)
    (h2 : cellAt b p.1 p.2 = color ∧ p ∉ vis) :
    scanNb b color (q, vis, grp, lib) p = (q ++ [p], insert p vis, grp ++ [p], lib) := by
  unfold scanNb
  rw [if_neg h1, if_pos h2]

theorem scanNb_skip {b : Board} {color : Cell} {p : Nat × Nat}
    {q : List (Nat × Nat)} {vis : Finset (Nat × Nat)} {grp : List (Nat × Nat)}
    {lib : Finset (Nat × Nat)} (h1 : ¬ cellAt b p.1 p.2 = Cell.empty)
    (h2 : ¬ (cellAt b p.1 p.2 = color ∧ p ∉ vis)) :
    scanNb b color (q, vis, grp, lib) p = (q, vis, grp, lib) := by
  unfold scanNb
  rw [if_neg h1, if_neg h2]

/-- Effect of scanning a neighbor list: the queue and the group receive the
same new elements (the unvisited `color` cells of the list), the visited set
absorbs them, the liberty set absorbs the empty cells of the list, and the
termination measure is unchanged. -/
theorem scanNb_foldl (b : Board) (color : Cell) (hcol : color ≠ Cell.empty) :
    ∀ (nbs : List (Nat × Nat)) (q : List (Nat × Nat)) (vis : Finset (Nat × Nat))
      (grp : List (Nat × Nat)) (lib : Finset (Nat × Nat)),
    ∃ (new : List (Nat × Nat)) (lib' : Finset (Nat × Nat)),
      nbs.foldl (scanNb b color) (q, vis, grp, lib) =
        (q ++ new, vis ∪ new.toFinset, grp ++ new, lib') ∧
      new.Nodup ∧
      (∀ p ∈ new, p ∈ nbs ∧ cellAt b p.1 p.2 = color ∧ p ∉ vis) ∧
      (∀ p ∈ nbs, cellAt b p.1 p.2 = color → p ∈ vis ∪ new.toFinset) ∧
      (∀ e, e ∈ lib' ↔ e ∈ lib ∨ (e ∈ nbs ∧ cellAt b e.1 e.2 = Cell.empty)) ∧
      bfsMeasure b.size (q ++ new) (vis ∪ new.toFinset) = bfsMeasure b.size q vis := by
  intro nbs
  induction nbs with
  | nil =>
    intro q vis grp lib
    refine ⟨[], lib, ?_, List.nodup_nil, ?_, ?_, ?_, ?_⟩ <;> simp
  | cons p rest ih =>
    intro q vis grp lib
    rw [List.foldl_cons]
    by_cases hemp : cellAt b p.1 p.2 = Cell.empty
    · rw [scanNb_empty hemp]
      obtain ⟨new, lib', heq, hnd, hprops, hcompl, hlib, hms⟩ := ih q vis grp (insert p lib)
      refine ⟨new, lib', heq, hnd, ?_, ?_, ?_, hms⟩
      · intro x hx
        obtain ⟨h1, h2, h3⟩ := hprops x hx
        exact ⟨List.mem_cons_of_mem _ h1, h2, h3⟩
      · intro x hx hc
        rcases List.mem_cons.mp hx with rfl | hx'
        · rw [hc] at hemp; exact absurd hemp hcol
        · exact hcompl x hx' hc
      · intro e
        rw [hlib e]
        simp only [Finset.mem_insert, List.mem_cons]
        constructor
        · rintro ((rfl | h) | ⟨h1, h2⟩)
          · exact Or.inr ⟨Or.inl rfl, hemp⟩
          · exact Or.inl h
          · exact Or.inr ⟨Or.inr h1, h2⟩
        · rintro (h | ⟨rfl | h1, h2⟩)
          · exact Or.inl (Or.inr h)
          · exact Or.inl (Or.inl rfl)
          · exact Or.inr ⟨h1, h2⟩
    · by_cases hadd : cellAt b p.1 p.2 = color ∧ p ∉ vis
      · rw [scanNb_add hemp hadd]
        obtain ⟨new, lib', heq, hnd, hprops, hcompl, hlib, hms⟩ :=
          ih (q ++ [p]) (insert p vis) (grp ++ [p]) lib
        have hpB : p.1 < b.size ∧ p.2 < b.size :=
          lt_size_of_cellAt_ne_empty (by rw [hadd.1]; exact hcol)
        have hnotp : ∀ x ∈ new, x ≠ p := by
          intro x hx
          intro hxp
          have := (hprops x hx).2.2
          rw [hxp] at this
          exact this (Finset.mem_insert_self _ _)
        refine ⟨p :: new, lib', ?_, ?_, ?_, ?_, ?_, ?_⟩
        · rw [heq]
          have hq : (q ++ [p]) ++ new = q ++ (p :: new) := by
            rw [List.append_assoc]; rfl
          have hg : (grp ++ [p]) ++ new = grp ++ (p :: new) := by
            rw [List.append_assoc]; rfl
          have hv : insert p vis ∪ new.toFinset = vis ∪ (p :: new).toFinset := by
            ext x
            simp only [Finset.mem_union, Finset.mem_insert, List.toFinset_cons,
              List.mem_toFinset]
            tauto
          rw [hq, hg, hv]
        · exact List.nodup_cons.mpr ⟨fun hc => hnotp p hc rfl, hnd⟩
        · intro x hx
          rcases List.mem_cons.mp hx with rfl | hx'
          · exact ⟨List.mem_cons_self _ _, hadd.1, hadd.2⟩
          · obtain ⟨h1, h2, h3⟩ := hprops x hx'
            exact ⟨List.mem_cons_of_mem _ h1, h2,
              fun hc => h3 (Finset.mem_insert_of_mem hc)⟩
        · intro x hx hc
          rcases List.mem_cons.mp hx with rfl | hx'
          · simp
          · have := hcompl x hx' hc
            simp only [Finset.mem_union, Finset.mem_insert, List.mem_toFinset,
              List.toFinset_cons] at this ⊢
            tauto
        · intro e
          rw [hlib e]
          simp only [List.mem_cons]
          constructor
          · rintro (h | ⟨h1, h2⟩)
            · exact Or.inl h
            · exact Or.inr ⟨Or.inr h1, h2⟩
          · rintro (h | ⟨rfl | h1, h2⟩)
            · exact Or.inl h
            · exact absurd h2 hemp
            · exact Or.inr ⟨h1, h2⟩
        · have hstep : bfsMeasure b.size (q ++ [p]) (insert p vis) = bfsMeasure b.size q vis :=
            bfsMeasure_insert hpB hadd.2
          have hv : insert p vis ∪ new.toFinset = vis ∪ (p :: new).toFinset := by
            ext x
            simp only [Finset.mem_union, Finset.mem_insert, List.toFinset_cons,
              List.mem_toFinset]
            tauto
          have hq : (q ++ [p]) ++ new = q ++ (p :: new) := by
            rw [List.append_assoc]; rfl
          rw [← hv, ← hq, hms, hstep]
      · rw [scanNb_skip hemp hadd]
        obtain ⟨new, lib', heq, hnd, hprops, hcompl, hlib, hms⟩ := ih q vis grp lib
        refine ⟨new, lib', heq, hnd, ?_, ?_, ?_, hms⟩
        · intro x hx
          obtain ⟨h1, h2, h3⟩ := hprops x hx
          exact ⟨List.mem_cons_of_mem _ h1, h2, h3⟩
        · intro x hx hc
          rcases List.mem_cons.mp hx with rfl | hx'
          · have hxvis : x ∈ vis := by
              by_contra hxv
              exact hadd ⟨hc, hxv⟩
            exact Finset.mem_union_left _ hxvis
          · exact hcompl x hx' hc
        · intro e
          rw [hlib e]
          simp only [List.mem_cons]
          constructor
          · rintro (h | ⟨h1, h2⟩)
            · exact Or.inl h
            · exact Or.inr ⟨Or.inr h1, h2⟩
          · rintro (h | ⟨rfl | h1, h2⟩)
            · exact Or.inl h
            · exact absurd h2 hemp
            · exact Or.inr ⟨h1, h2⟩

/-- Invariant of the BFS loop state, relative to the board, the query color,
the pre-visited set `avoid` and the start cell `s0`. -/
structure SearchInv (b : Board) (color : Cell) (avoid : Finset (Nat × Nat)) (s0 : Nat × Nat)
    (q : List (Nat × Nat)) (vis : Finset (Nat × Nat)) (grp : List (Nat × Nat))
    (lib : Finset (Nat × Nat)) : Prop where
  vis_eq : vis = avoid ∪ grp.toFinset
  grp_nodup : grp.Nodup
  start_mem : s0 ∈ grp
  grp_color : ∀ p ∈ grp, cellAt b p.1 p.2 = color
  grp_avoid : ∀ p ∈ grp, p ∉ avoid
  grp_reach : ∀ p ∈ grp, ReachAvoid b color avoid s0 p
  q_sub : ∀ p ∈ q, p ∈ grp
  q_nodup : q.Nodup
  closed : ∀ p ∈ grp, p ∉ q → ∀ nb ∈ neighborsOf b.size p.1 p.2,
    cellAt b nb.1 nb.2 = color → nb ∉ avoid → nb ∈ grp
  lib_sound : ∀ e ∈ lib, cellAt b e.1 e.2 = Cell.empty ∧
    ∃ p ∈ grp, p ∉ q ∧ e ∈ neighborsOf b.size p.1 p.2
  lib_complete : ∀ p ∈ grp, p ∉ q → ∀ e ∈ neighborsOf b.size p.1 p.2,
    cellAt b e.1 e.2 = Cell.empty → e ∈ lib

/-- With an empty queue the invariant pins down the group and liberty sets. -/
theorem searchInv_final {b : Board} {color : Cell} {avoid : Finset (Nat × Nat)}
    {s0 : Nat × Nat} {vis : Finset (Nat × Nat)} {grp : List (Nat × Nat)}
    {lib : Finset (Nat × Nat)}
    (inv : SearchInv b color avoid s0 [] vis grp lib) :
    (∀ p, p ∈ grp ↔ ReachAvoid b color avoid s0 p) ∧
    (∀ e, e ∈ lib ↔ cellAt b e.1 e.2 = Cell.empty ∧
      ∃ p ∈ grp, e ∈ neighborsOf b.size p.1 p.2) := by
  constructor
  · intro p
    constructor
    · exact inv.grp_reach p
    · intro h
      induction h with
      | refl => exact inv.start_mem
      | tail _ hstep ih =>
        exact inv.closed _ ih (List.not_mem_nil _) _ hstep.1.1 hstep.1.2 hstep.2
  · intro e
    constructor
    · intro he
      obtain ⟨hemp, p, hp, _, hadj⟩ := inv.lib_sound e he
      exact ⟨hemp, p, hp, hadj⟩
    · rintro ⟨hemp, p, hp, hadj⟩
      exact inv.lib_complete p hp (List.not_mem_nil _) e hadj hemp

/-- The BFS loop, run with enough fuel from an invariant state, ends with the
reachable set as its group and its empty neighborhood as its liberties. -/
theorem bfsLoop_correct (b : Board) (color : Cell) (avoid : Finset (Nat × Nat))
    (s0 : Nat × Nat) (hcol : color ≠ Cell.empty) :
    ∀ (fuel : Nat) (q : List (Nat × Nat)) (vis : Finset (Nat × Nat))
      (grp : List (Nat × Nat)) (lib : Finset (Nat × Nat)),
      SearchInv b color avoid s0 q vis grp lib →
      bfsMeasure b.size q vis ≤ fuel →
      ∃ grpF libF,
        bfsLoop b color fuel q vis grp lib = (grpF, libF, avoid ∪ grpF.toFinset) ∧
        grpF.Nodup ∧
        (∀ p, p ∈ grpF ↔ ReachAvoid b color avoid s0 p) ∧
        (∀ e, e ∈ libF ↔ cellAt b e.1 e.2 = Cell.empty ∧
          ∃ p ∈ grpF, e ∈ neighborsOf b.size p.1 p.2) := by
  intro fuel
  induction fuel with
  | zero =>
    intro q vis grp lib inv hm
    have hq : q = [] := by
      have : q.length = 0 := by
        unfold bfsMeasure at hm
        omega
      exact List.length_eq_zero.mp this
    subst hq
    obtain ⟨h1, h2⟩ := searchInv_final inv
    exact ⟨grp, lib, by rw [bfsLoop, inv.vis_eq], inv.grp_nodup, h1, h2⟩
  | succ fuel ih =>
    intro q vis grp lib inv hm
    match q with
    | [] =>
      obtain ⟨h1, h2⟩ := searchInv_final inv
      exact ⟨grp, lib, by rw [bfsLoop, inv.vis_eq], inv.grp_nodup, h1, h2⟩
    | curr :: rest =>
      obtain ⟨new, lib', heq, hnd, hprops, hcompl, hlib, hms⟩ :=
        scanNb_foldl b color hcol (neighborsOf b.size curr.1 curr.2) rest vis grp lib
      have hgv : ∀ p ∈ grp, p ∈ vis := by
        intro p hp
        rw [inv.vis_eq]
        exact Finset.mem_union_right _ (List.mem_toFinset.mpr hp)
      have hav : avoid ⊆ vis := by
        rw [inv.vis_eq]
        exact Finset.subset_union_left
      have hcurr_grp : curr ∈ grp := inv.q_sub curr (List.mem_cons_self _ _)
      have hcurr_vis : curr ∈ vis := hgv curr hcurr_grp
      have hcurr_rest : curr ∉ rest := (List.nodup_cons.mp inv.q_nodup).1
      have hnew_vis : ∀ p ∈ new, p ∉ vis := fun p hp => (hprops p hp).2.2
      have hnew_grp : ∀ p ∈ grp, p ∉ new := fun p hp hn => hnew_vis p hn (hgv p hp)
      have hcurr_new : curr ∉ new := fun hn => hnew_vis curr hn hcurr_vis
      have hstep : bfsLoop b color (fuel + 1) (curr :: rest) vis grp lib =
          bfsLoop b color fuel (rest ++ new) (vis ∪ new.toFinset) (grp ++ new) lib' := by
        rw [bfsLoop, heq]
      rw [hstep]
      have hvis' : vis ∪ new.toFinset = avoid ∪ (grp ++ new).toFinset := by
        rw [inv.vis_eq]
        ext x
        simp only [Finset.mem_union, List.mem_toFinset, List.mem_append,
          List.toFinset_append]
        tauto
      have inv' : SearchInv b color avoid s0 (rest ++ new) (vis ∪ new.toFinset)
          (grp ++ new) lib' := by
        refine ⟨hvis', ?_, ?_, ?_, ?_, ?_, ?_, ?_, ?_, ?_, ?_⟩
        · rw [List.nodup_append]
          exact ⟨inv.grp_nodup, hnd, fun p hp => hnew_grp p hp⟩
        · exact List.mem_append_left _ inv.start_mem
        · intro p hp
          rcases List.mem_append.mp hp with h | h
          · exact inv.grp_color p h
          · exact (hprops p h).2.1
        · intro p hp
          rcases List.mem_append.mp hp with h | h
          · exact inv.grp_avoid p h
          · exact fun hc => hnew_vis p h (hav hc)
        · intro p hp
          rcases List.mem_append.mp hp with h | h
          · exact inv.grp_reach p h
          · refine Relation.ReflTransGen.tail (inv.grp_reach curr hcurr_grp) ?_
            exact ⟨⟨(hprops p h).1, (hprops p h).2.1⟩, fun hc => hnew_vis p h (hav hc)⟩
        · intro p hp
          rcases List.mem_append.mp hp with h | h
          · exact List.mem_append_left _ (inv.q_sub p (List.mem_cons_of_mem _ h))
          · exact List.mem_append_right _ h
        · rw [List.nodup_append]
          refine ⟨(List.nodup_cons.mp inv.q_nodup).2, hnd, ?_⟩
          intro p hp
          exact fun hn => hnew_vis p hn (hgv p (inv.q_sub p (List.mem_cons_of_mem _ hp)))
        · intro p hp hpq nb hnb hnbc hnba
          have hpq1 : p ∉ rest := fun hc => hpq (List.mem_append_left _ hc)
          have hpq2 : p ∉ new := fun hc => hpq (List.mem_append_right _ hc)
          rcases List.mem_append.mp hp with h | h
          · by_cases hpc : p = curr
            · subst hpc
              have := hcompl nb hnb hnbc
              rcases Finset.mem_union.mp this with h2 | h2
              · rw [inv.vis_eq] at h2
                rcases Finset.mem_union.mp h2 with h3 | h3
                · exact absurd h3 hnba
                · exact List.mem_append_left _ (List.mem_toFinset.mp h3)
              · exact List.mem_append_right _ (List.mem_toFinset.mp h2)
            · have hpq3 : p ∉ curr :: rest := by
                intro hc
                rcases List.mem_cons.mp hc with h4 | h4
                · exact hpc h4
                · exact hpq1 h4
              exact List.mem_append_left _ (inv.closed p h hpq3 nb hnb hnbc hnba)
          · exact absurd h hpq2
        · intro e he
          rcases (hlib e).mp he with h | ⟨h1, h2⟩
          · obtain ⟨hemp, p, hp, hpq, hadj⟩ := inv.lib_sound e h
            have hpq1 : p ∉ rest := fun hc => hpq (List.mem_cons_of_mem _ hc)
            have hpq2 : p ∉ new := hnew_grp p hp
            refine ⟨hemp, p, List.mem_append_left _ hp, ?_, hadj⟩
            intro hc
            rcases List.mem_append.mp hc with h4 | h4
            · exact hpq1 h4
            · exact hpq2 h4
          · refine ⟨h2, curr, List.mem_append_left _ hcurr_grp, ?_, h1⟩
            intro hc
            rcases List.mem_append.mp hc with h4 | h4
            · exact hcurr_rest h4
            · exact hcurr_new h4
        · intro p hp hpq e hadj hemp
          have hpq1 : p ∉ rest := fun hc => hpq (List.mem_append_left _ hc)
          have hpq2 : p ∉ new := fun hc => hpq (List.mem_append_right _ hc)
          rcases List.mem_append.mp hp with h | h
          · by_cases hpc : p = curr
            · subst hpc
              exact (hlib e).mpr (Or.inr ⟨hadj, hemp⟩)
            · have hpq3 : p ∉ curr :: rest := by
                intro hc
                rcases List.mem_cons.mp hc with h4 | h4
                · exact hpc h4
                · exact hpq1 h4
              exact (hlib e).mpr (Or.inl (inv.lib_complete p h hpq3 e hadj hemp))
          · exact absurd h hpq2
      have hm' : bfsMeasure b.size (rest ++ new) (vis ∪ new.toFinset) ≤ fuel := by
        rw [hms]
        unfold bfsMeasure at hm ⊢
        simp only [List.length_cons] at hm
        omega
      exact ih (rest ++ new) (vis ∪ new.toFinset) (grp ++ new) lib' inv' hm'

/-- `_find_group` on an unvisited `color` cell: the returned group is exactly
the set of cells connected to the start through `color` cells avoiding the
pre-visited set, and the returned liberties are exactly the distinct empty
cells adjacent to a group member.  The updated visited set is the input plus
the group. -/
theorem findGroup_correct (b : Board) (color : Cell) (avoid : Finset (Nat × Nat))
    (s0 : Nat × Nat) (hcol : color ≠ Cell.empty)
    (hcell : cellAt b s0.1 s0.2 = color) (hav : s0 ∉ avoid) :
    ∃ g l, findGroup b s0.1 s0.2 color avoid = (some (g, l), avoid ∪ g.toFinset) ∧
      g.Nodup ∧
      (∀ p, p ∈ g ↔ ReachAvoid b color avoid s0 p) ∧
      (∀ e, e ∈ l ↔ cellAt b e.1 e.2 = Cell.empty ∧
        ∃ p ∈ g, e ∈ neighborsOf b.size p.1 p.2) := by
  have hguard : ¬((s0.1, s0.2) ∈ avoid ∨ cellAt b s0.1 s0.2 ≠ color) := by
    push_neg
    constructor
    · intro hc
      exact hav (by simpa using hc)
    · exact hcell
  have hs0B : s0.1 < b.size ∧ s0.2 < b.size :=
    lt_size_of_cellAt_ne_empty (by rw [hcell]; exact hcol)
  have inv0 : SearchInv b color avoid s0 [(s0.1, s0.2)] (insert (s0.1, s0.2) avoid)
      [(s0.1, s0.2)] ∅ := by
    have hs0 : (s0.1, s0.2) = s0 := rfl
    rw [hs0]
    refine ⟨?_, List.nodup_singleton _, List.mem_singleton_self _, ?_, ?_, ?_, ?_,
      List.nodup_singleton _, ?_, ?_, ?_⟩
    · ext x
      simp only [Finset.mem_insert, Finset.mem_union, List.toFinset_cons,
        List.toFinset_nil, insert_emptyc_eq, List.mem_toFinset, List.mem_singleton,
        Finset.mem_singleton]
      tauto
    · intro p hp
      rw [List.mem_singleton.mp hp]
      exact hcell
    · intro p hp
      rw [List.mem_singleton.mp hp]
      exact hav
    · intro p hp
      rw [List.mem_singleton.mp hp]
      exact Relation.ReflTransGen.refl
    · intro p hp
      exact hp
    · intro p hp hpq
      exact absurd hp hpq
    · intro e he
      exact absurd he (Finset.not_mem_empty _)
    · intro p hp hpq
      exact absurd hp hpq
  have hm0 : bfsMeasure b.size [(s0.1, s0.2)] (insert (s0.1, s0.2) avoid) ≤
      b.size * b.size + 1 := by
    unfold bfsMeasure
    have h1 : (boardCells b.size \ insert (s0.1, s0.2) avoid).card ≤
        (boardCells b.size).card := Finset.card_le_card (Finset.sdiff_subset)
    have h2 : (boardCells b.size).card = b.size * b.size := by
      unfold boardCells
      rw [Finset.card_product]
      simp
    simp only [List.length_cons, List.length_nil]
    omega
  obtain ⟨g, l, heq, hnd, hmem, hlib⟩ :=
    bfsLoop_correct b color avoid s0 hcol (b.size * b.size + 1) [(s0.1, s0.2)]
      (insert (s0.1, s0.2) avoid) [(s0.1, s0.2)] ∅ inv0 hm0
  refine ⟨g, l, ?_, hnd, hmem, hlib⟩
  unfold findGroup
  rw [if_neg hguard]
  simp only [heq]

/-- `_find_group` on a visited or differently-colored cell returns
`None, None` and leaves the visited set unchanged. -/
theorem findGroup_none {b : Board} {r c : Nat} {color : Cell}
    {visited : Finset (Nat × Nat)}
    (h : (r, c) ∈ visited ∨ cellAt b r c ≠ color) :
    findGroup b r c color visited = (none, visited) := by
  unfold findGroup
  rw [if_pos h]

/-- Connectivity through cells of a set `T`: a path of neighbor steps staying
inside `T`. -/
def ConnWithin (n : Nat) (T : Set (Nat × Nat)) (s p : Nat × Nat) : Prop :=
  Relation.ReflTransGen (fun x y => y ∈ neighborsOf n x.1 x.2 ∧ y ∈ T) s p

/-- **C7.** `_find_group(r, c, color, set())` returns `None, None` when the
queried cell is empty; on a `color` cell it returns the maximal 4-connected
same-color set containing the cell — the group contains the cell, consists of
`color` cells, is connected within itself, and contains every
connected-within-itself set of `color` cells through the queried cell —
together with the set of distinct empty cells adjacent to at least one
member. -/
theorem findGroup_group_spec (b : Board) (r c : Nat) (color : Cell)
    (hcol : color ≠ Cell.empty) :
    (cellAt b r c = Cell.empty → findGroup b r c color ∅ = (none, ∅)) ∧
    (cellAt b r c = color →
      ∃ g l, findGroup b r c color ∅ = (some (g, l), g.toFinset) ∧
        (r, c) ∈ g ∧
        (∀ p ∈ g, cellAt b p.1 p.2 = color) ∧
        (∀ p ∈ g, ConnWithin b.size {x | x ∈ g} (r, c) p) ∧
        (∀ T : Set (Nat × Nat), (r, c) ∈ T → (∀ p ∈ T, cellAt b p.1 p.2 = color) →
          (∀ p ∈ T, ConnWithin b.size T (r, c) p) → ∀ p ∈ T, p ∈ g) ∧
        (∀ e, e ∈ l ↔ cellAt b e.1 e.2 = Cell.empty ∧
          ∃ p ∈ g, e ∈ neighborsOf b.size p.1 p.2)) := by
  constructor
  · intro hemp
    apply findGroup_none
    right
    rw [hemp]
    exact fun hc => hcol hc.symm
  · intro hcell
    obtain ⟨g, l, heq, _, hmem, hlib⟩ :=
      findGroup_correct b color ∅ (r, c) hcol hcell (Finset.not_mem_empty _)
    rw [Finset.empty_union] at heq
    have hmem' : ∀ p, p ∈ g ↔ ReachColor b color (r, c) p := by
      intro p
      rw [hmem p]
      exact reachAvoid_empty_iff
    refine ⟨g, l, heq, ?_, ?_, ?_, ?_, hlib⟩
    · exact (hmem' (r, c)).mpr Relation.ReflTransGen.refl
    · intro p hp
      exact cellAt_of_reachColor hcell ((hmem' p).mp hp)
    · intro p hp
      have hr := (hmem' p).mp hp
      unfold ConnWithin
      induction hr with
      | refl => exact Relation.ReflTransGen.refl
      | tail hstep hlast ih =>
        refine Relation.ReflTransGen.tail (ih ((hmem' _).mpr hstep)) ?_
        exact ⟨hlast.1, Set.mem_setOf_eq ▸ (hmem' _).mpr (Relation.ReflTransGen.tail hstep hlast)⟩
    · intro T hT hTcol hTconn p hp
      rw [hmem' p]
      have := hTconn p hp
      unfold ConnWithin at this
      clear hp
      induction this with
      | refl => exact Relation.ReflTransGen.refl
      | tail _ hstep ih =>
        exact Relation.ReflTransGen.tail ih ⟨hstep.1, hTcol _ hstep.2⟩

/-! ## Capture correctness -/

theorem opponent_ne_empty (color : Cell) : opponent color ≠ Cell.empty := by
  unfold opponent
  by_cases h : color = Cell.black <;> simp [h]

theorem opponent_ne_self {color : Cell}
    (h : color = Cell.black ∨ color = Cell.white) : opponent color ≠ color := by
  unfold opponent
  rcases h with rfl | rfl <;> simp

/-- The liberty set of the connected component of `root` (all empty cells
adjacent to some cell of the component). -/
def CompLib (b : Board) (color : Cell) (root : Nat × Nat) : Set (Nat × Nat) :=
  {e | cellAt b e.1 e.2 = Cell.empty ∧
    ∃ q, ReachColor b color root q ∧ e ∈ neighborsOf b.size q.1 q.2}

theorem compLib_congr {b : Board} {color : Cell} {p q : Nat × Nat}
    (hcol : color ≠ Cell.empty) (hp : cellAt b p.1 p.2 = color)
    (h : ReachColor b color p q) : CompLib b color p = CompLib b color q := by
  ext e
  unfold CompLib
  simp only [Set.mem_setOf_eq]
  constructor
  · rintro ⟨h1, x, hx, h2⟩
    exact ⟨h1, x, Relation.ReflTransGen.trans (reachColor_symm hcol hp h) hx, h2⟩
  · rintro ⟨h1, x, hx, h2⟩
    exact ⟨h1, x, Relation.ReflTransGen.trans h hx, h2⟩

/-- Stability of connectivity under removal of a set `D` of cells that is
downward closed for same-color steps: reachability from a root outside `D`
is the same on the board with `D` emptied as on the original board. -/
theorem reachColor_stable (b1 bd : Board) (col : Cell) (hcol : col ≠ Cell.empty)
    (hsize : bd.size = b1.size) (D : Set (Nat × Nat))
    (hD1 : ∀ x ∈ D, cellAt bd x.1 x.2 = Cell.empty)
    (hD2 : ∀ x, x ∉ D → cellAt bd x.1 x.2 = cellAt b1 x.1 x.2)
    (hDbwd : ∀ x y, y ∈ D → StepColor b1 col x y → cellAt b1 x.1 x.2 = col → x ∈ D)
    (root : Nat × Nat) (hroot : root ∉ D) (hrootc : cellAt b1 root.1 root.2 = col) :
    (∀ p, ReachColor b1 col root p → p ∉ D) ∧
    (∀ p, ReachColor bd col root p ↔ ReachColor b1 col root p) := by
  have havoid : ∀ p, ReachColor b1 col root p → p ∉ D := by
    intro p h
    induction h with
    | refl => exact hroot
    | tail hr hstep ih =>
      intro hyD
      exact ih (hDbwd _ _ hyD hstep (cellAt_of_reachColor hrootc hr))
  refine ⟨havoid, ?_⟩
  intro p
  constructor
  · intro h
    induction h with
    | refl => exact Relation.ReflTransGen.refl
    | tail _ hstep ih =>
      rename_i x y _
      have hyD : y ∉ D := by
        intro hyD
        exact hcol (hstep.2.symm.trans (hD1 y hyD))
      have hcell : cellAt b1 y.1 y.2 = col := by
        rw [← hD2 y hyD]
        exact hstep.2
      refine Relation.ReflTransGen.tail ih ⟨?_, hcell⟩
      rw [← hsize]
      exact hstep.1
  · intro h
    induction h with
    | refl => exact Relation.ReflTransGen.refl
    | tail hr hstep ih =>
      rename_i x y
      have hyD : y ∉ D := havoid y (Relation.ReflTransGen.tail hr hstep)
      have hcell : cellAt bd y.1 y.2 = col := by
        rw [hD2 y hyD]
        exact hstep.2
      refine Relation.ReflTransGen.tail ih ⟨?_, hcell⟩
      rw [hsize]
      exact hstep.1

/-- Stability of the liberty set under the same removal, provided `D` holds
only `col` cells of the original board. -/
theorem compLib_stable (b1 bd : Board) (col : Cell) (hcol : col ≠ Cell.empty)
    (hsize : bd.size = b1.size) (D : Set (Nat × Nat))
    (hD1 : ∀ x ∈ D, cellAt bd x.1 x.2 = Cell.empty)
    (hD2 : ∀ x, x ∉ D → cellAt bd x.1 x.2 = cellAt b1 x.1 x.2)
    (hD3 : ∀ x ∈ D, cellAt b1 x.1 x.2 = col)
    (hDbwd : ∀ x y, y ∈ D → StepColor b1 col x y → cellAt b1 x.1 x.2 = col → x ∈ D)
    (root : Nat × Nat) (hroot : root ∉ D) (hrootc : cellAt b1 root.1 root.2 = col) :
    ∀ e, (cellAt bd e.1 e.2 = Cell.empty ∧
        ∃ p, ReachColor bd col root p ∧ e ∈ neighborsOf bd.size p.1 p.2) ↔
      e ∈ CompLib b1 col root := by
  obtain ⟨havoid, hiff⟩ :=
    reachColor_stable b1 bd col hcol hsize D hD1 hD2 hDbwd root hroot hrootc
  intro e
  unfold CompLib
  simp only [Set.mem_setOf_eq]
  constructor
  · rintro ⟨hemp, p, hreach, hadj⟩
    have hreach1 : ReachColor b1 col root p := (hiff p).mp hreach
    have hpD : p ∉ D := havoid p hreach1
    have heD : e ∉ D := by
      intro heD
      have hstep : StepColor b1 col p e := by
        refine ⟨?_, hD3 e heD⟩
        rw [← hsize]
        exact hadj
      exact hpD (hDbwd p e heD hstep (cellAt_of_reachColor hrootc hreach1))
    refine ⟨by rw [← hD2 e heD]; exact hemp, p, hreach1, ?_⟩
    rw [← hsize]
    exact hadj
  · rintro ⟨hemp, p, hreach, hadj⟩
    have heD : e ∉ D := by
      intro heD
      exact hcol ((hD3 e heD).symm.trans hemp)
    refine ⟨by rw [hD2 e heD]; exact hemp, p, (hiff p).mpr hreach, ?_⟩
    rw [hsize]
    exact hadj

/-- The cells captured so far by `_handle_captures` after processing the
neighbors in `done`: members of a no-liberty opposing group rooted at a
processed neighbor, evaluated on the post-placement board `b1`. -/
def CapturedBy (b1 : Board) (color : Cell) (done : List (Nat × Nat)) (p : Nat × Nat) : Prop :=
  ∃ nb ∈ done, cellAt b1 nb.1 nb.2 = opponent color ∧
    ReachColor b1 (opponent color) nb p ∧ CompLib b1 (opponent color) nb = ∅

/-- The cells `play_move(r, c, color)` captures, described without reference
to any processing order: cells of an opposing-color group that is adjacent to
`(r, c)` and has zero liberties on the post-placement board `b1`. -/
def CapturedP (b1 : Board) (r c : Nat) (color : Cell) (p : Nat × Nat) : Prop :=
  CapturedBy b1 color (neighborsOf b1.size r c) p

theorem cellAt_of_capturedBy {b1 : Board} {color : Cell} {done : List (Nat × Nat)}
    {p : Nat × Nat} (h : CapturedBy b1 color done p) :
    cellAt b1 p.1 p.2 = opponent color := by
  obtain ⟨nb, _, hc, hr, _⟩ := h
  exact cellAt_of_reachColor hc hr

theorem capturedBy_bwd {b1 : Board} {color : Cell} {done : List (Nat × Nat)}
    {x y : Nat × Nat} (hy : CapturedBy b1 color done y)
    (hstep : StepColor b1 (opponent color) x y)
    (hx : cellAt b1 x.1 x.2 = opponent color) : CapturedBy b1 color done x := by
  obtain ⟨nb, hmem, hc, hr, hl⟩ := hy
  exact ⟨nb, hmem, hc,
    Relation.ReflTransGen.tail hr (stepColor_symm (opponent_ne_empty color) hx hstep), hl⟩

/-- The invariant of the `_handle_captures` neighbor loop: the current board
is the post-placement board with exactly the so-far captured cells emptied,
and the captured list holds exactly those cells. -/
structure CaptInv (b1 : Board) (color : Cell) (done : List (Nat × Nat))
    (bd : Board) (caps : List (Nat × Nat)) : Prop where
  size_eq : bd.size = b1.size
  removed : ∀ p, CapturedBy b1 color done p → cellAt bd p.1 p.2 = Cell.empty
  kept : ∀ p, ¬ CapturedBy b1 color done p → cellAt bd p.1 p.2 = cellAt b1 p.1 p.2
  caps_iff : ∀ p, p ∈ caps ↔ CapturedBy b1 color done p

theorem captureStep_skip {color : Cell} {bd : Board} {caps : List (Nat × Nat)}
    {nb : Nat × Nat} (h : ¬ cellAt bd nb.1 nb.2 = opponent color) :
    captureStep color (bd, caps) nb = (bd, caps) := by
  unfold captureStep
  rw [if_neg h]

theorem captureStep_opp {color : Cell} {bd : Board} {caps : List (Nat × Nat)}
    {nb : Nat × Nat} {g l : _} {v : Finset (Nat × Nat)}
    (h : cellAt bd nb.1 nb.2 = opponent color)
    (heq : findGroup bd nb.1 nb.2 (opponent color) ∅ = (some (g, l), v)) :
    captureStep color (bd, caps) nb =
      if g ≠ [] ∧ l = ∅ then (removeStones bd g, caps ++ g) else (bd, caps) := by
  unfold captureStep
  rw [if_pos h, heq]

/-- The `_handle_captures` neighbor loop preserves `CaptInv`: the processing
order of the neighbors is irrelevant, because a group already removed can
never reappear, two distinct opposing components never touch, and removing a
no-liberty component neither changes any other component nor its liberties. -/
theorem captureFold (b1 : Board) (color : Cell) :
    ∀ (todo done : List (Nat × Nat)) (bd : Board) (caps : List (Nat × Nat)),
      CaptInv b1 color done bd caps →
      CaptInv b1 color (done ++ todo)
        (todo.foldl (captureStep color) (bd, caps)).1
        (todo.foldl (captureStep color) (bd, caps)).2 := by
  intro todo
  induction todo with
  | nil =>
    intro done bd caps inv
    simpa using inv
  | cons nb todo' ih =>
    intro done bd caps inv
    rw [List.foldl_cons]
    have hassoc : done ++ nb :: todo' = (done ++ [nb]) ++ todo' := by simp
    rw [hassoc]
    by_cases hbd : cellAt bd nb.1 nb.2 = opponent color
    · have hnotcap : ¬ CapturedBy b1 color done nb := by
        intro hc
        exact opponent_ne_empty color (hbd.symm.trans (inv.removed nb hc))
      have hb1nb : cellAt b1 nb.1 nb.2 = opponent color :=
        (inv.kept nb hnotcap).symm.trans hbd
      obtain ⟨g, l, heq, hnd, hmemA, hlibA⟩ :=
        findGroup_correct bd (opponent color) ∅ nb (opponent_ne_empty color) hbd
          (Finset.not_mem_empty _)
      have hmemBD : ∀ p, p ∈ g ↔ ReachColor bd (opponent color) nb p := by
        intro p
        rw [hmemA p]
        exact reachAvoid_empty_iff
      have hD1 : ∀ x ∈ {x | CapturedBy b1 color done x}, cellAt bd x.1 x.2 = Cell.empty :=
        fun x hx => inv.removed x hx
      have hD2 : ∀ x, x ∉ {x | CapturedBy b1 color done x} →
          cellAt bd x.1 x.2 = cellAt b1 x.1 x.2 := fun x hx => inv.kept x hx
      have hD3 : ∀ x ∈ {x | CapturedBy b1 color done x},
          cellAt b1 x.1 x.2 = opponent color := fun x hx => cellAt_of_capturedBy hx
      have hDbwd : ∀ x y, y ∈ {x | CapturedBy b1 color done x} →
          StepColor b1 (opponent color) x y → cellAt b1 x.1 x.2 = opponent color →
          x ∈ {x | CapturedBy b1 color done x} :=
        fun x y hy hs hx => capturedBy_bwd hy hs hx
      have hrootD : nb ∉ {x | CapturedBy b1 color done x} := hnotcap
      obtain ⟨havoid, hreach_iff⟩ :=
        reachColor_stable b1 bd (opponent color) (opponent_ne_empty color) inv.size_eq
          {x | CapturedBy b1 color done x} hD1 hD2 hDbwd nb hrootD hb1nb
      have hlib_iff :=
        compLib_stable b1 bd (opponent color) (opponent_ne_empty color) inv.size_eq
          {x | CapturedBy b1 color done x} hD1 hD2 hD3 hDbwd nb hrootD hb1nb
      have hl_iff : l = ∅ ↔ CompLib b1 (opponent color) nb = ∅ := by
        constructor
        · intro hl
          rw [Set.eq_empty_iff_forall_not_mem]
          intro e he
          obtain ⟨hemp, p, hr, hadj⟩ := (hlib_iff e).mpr he
          have hel : e ∈ l := (hlibA e).mpr ⟨hemp, p, (hmemBD p).mpr hr, hadj⟩
          rw [hl] at hel
          exact Finset.not_mem_empty e hel
        · intro hl
          rw [Finset.eq_empty_iff_forall_not_mem]
          intro e he
          obtain ⟨hemp, p, hp, hadj⟩ := (hlibA e).mp he
          have hec : e ∈ CompLib b1 (opponent color) nb :=
            (hlib_iff e).mp ⟨hemp, p, (hmemBD p).mp hp, hadj⟩
          rw [hl] at hec
          exact absurd hec (Set.not_mem_empty e)
      have hnb_g : nb ∈ g := (hmemBD nb).mpr Relation.ReflTransGen.refl
      have hgne : g ≠ [] := List.ne_nil_of_mem hnb_g
      rw [captureStep_opp hbd heq]
      by_cases hl : l = ∅
      · rw [if_pos ⟨hgne, hl⟩]
        have hclnb : CompLib b1 (opponent color) nb = ∅ := hl_iff.mp hl
        have hmemB1 : ∀ p, p ∈ g ↔ ReachColor b1 (opponent color) nb p := by
          intro p
          rw [hmemBD p]
          exact hreach_iff p
        have hsnoc : ∀ p, CapturedBy b1 color (done ++ [nb]) p ↔
            (CapturedBy b1 color done p ∨ p ∈ g) := by
          intro p
          constructor
          · rintro ⟨nb', hmem, hc, hr, hlc⟩
            rcases List.mem_append.mp hmem with h | h
            · exact Or.inl ⟨nb', h, hc, hr, hlc⟩
            · have hnn : nb' = nb := List.mem_singleton.mp h
              subst hnn
              exact Or.inr ((hmemB1 p).mpr hr)
          · rintro (h | h)
            · obtain ⟨nb', hm, hc, hr, hlc⟩ := h
              exact ⟨nb', List.mem_append_left _ hm, hc, hr, hlc⟩
            · exact ⟨nb, List.mem_append_right _ (List.mem_singleton_self nb), hb1nb,
                (hmemB1 p).mp h, hclnb⟩
        have hg_opp : ∀ p ∈ g, cellAt bd p.1 p.2 = opponent color := by
          intro p hp
          exact cellAt_of_reachColor hbd ((hmemBD p).mp hp)
        have inv' : CaptInv b1 color (done ++ [nb]) (removeStones bd g) (caps ++ g) := by
          refine ⟨?_, ?_, ?_, ?_⟩
          · rw [size_removeStones]
            exact inv.size_eq
          · intro p hp
            rcases (hsnoc p).mp hp with h | h
            · have hpg : p ∉ g := by
                intro hpg
                exact opponent_ne_empty color ((hg_opp p hpg).symm.trans (inv.removed p h))
              rw [cellAt_removeStones, if_neg (fun hc => hpg hc.1)]
              exact inv.removed p h
            · have hbound : p.1 < bd.size ∧ p.2 < bd.size :=
                lt_size_of_cellAt_ne_empty
                  (by rw [hg_opp p h]; exact opponent_ne_empty color)
              rw [cellAt_removeStones, if_pos ⟨h, hbound⟩]
          · intro p hp
            rw [hsnoc p] at hp
            push_neg at hp
            rw [cellAt_removeStones, if_neg (fun hc => hp.2 hc.1)]
            exact inv.kept p hp.1
          · intro p
            rw [hsnoc p, List.mem_append]
            exact or_congr (inv.caps_iff p) Iff.rfl
        exact ih (done ++ [nb]) _ _ inv'
      · rw [if_neg (fun hc => hl hc.2)]
        have hclnb : CompLib b1 (opponent color) nb ≠ ∅ := fun hc => hl (hl_iff.mpr hc)
        have hsame : ∀ p,
            CapturedBy b1 color (done ++ [nb]) p ↔ CapturedBy b1 color done p := by
          intro p
          constructor
          · rintro ⟨nb', hmem, hc, hr, hlc⟩
            rcases List.mem_append.mp hmem with h | h
            · exact ⟨nb', h, hc, hr, hlc⟩
            · have hnn : nb' = nb := List.mem_singleton.mp h
              subst hnn
              exact absurd hlc hclnb
          · rintro ⟨nb', hmem, hc, hr, hlc⟩
            exact ⟨nb', List.mem_append_left _ hmem, hc, hr, hlc⟩
        have inv' : CaptInv b1 color (done ++ [nb]) bd caps :=
          ⟨inv.size_eq,
           fun p hp => inv.removed p ((hsame p).mp hp),
           fun p hp => inv.kept p (fun hc => hp ((hsame p).mpr hc)),
           fun p => (inv.caps_iff p).trans (hsame p).symm⟩
        exact ih (done ++ [nb]) bd caps inv'
    · rw [captureStep_skip hbd]
      have hsame : ∀ p,
          CapturedBy b1 color (done ++ [nb]) p ↔ CapturedBy b1 color done p := by
        intro p
        constructor
        · rintro ⟨nb', hmem, hc, hr, hl⟩
          rcases List.mem_append.mp hmem with h | h
          · exact ⟨nb', h, hc, hr, hl⟩
          · have hnn : nb' = nb := List.mem_singleton.mp h
            subst hnn
            have hcap : CapturedBy b1 color done nb' := by
              by_contra hnc
              exact hbd ((inv.kept nb' hnc).trans hc)
            obtain ⟨nb2, hm2, hc2, hr2, hl2⟩ := hcap
            exact ⟨nb2, hm2, hc2, Relation.ReflTransGen.trans hr2 hr, hl2⟩
        · rintro ⟨nb', hmem, hc, hr, hl⟩
          exact ⟨nb', List.mem_append_left _ hmem, hc, hr, hl⟩
      have inv' : CaptInv b1 color (done ++ [nb]) bd caps :=
        ⟨inv.size_eq,
         fun p hp => inv.removed p ((hsame p).mp hp),
         fun p hp => inv.kept p (fun hc => hp ((hsame p).mpr hc)),
         fun p => (inv.caps_iff p).trans (hsame p).symm⟩
      exact ih (done ++ [nb]) bd caps inv'

/-- The invariant instantiated for the whole of `_handle_captures`. -/
theorem captInv_handleCaptures (b1 : Board) (r c : Nat) (color : Cell) :
    CaptInv b1 color (neighborsOf b1.size r c)
      (handleCaptures b1 r c color).1 (handleCaptures b1 r c color).2 := by
  have init : CaptInv b1 color [] b1 [] := by
    refine ⟨rfl, ?_, fun p _ => rfl, ?_⟩
    · rintro p ⟨nb, h, _⟩
      cases h
    · intro p
      constructor
      · intro h
        cases h
      · rintro ⟨nb, h, _⟩
        cases h
  have h := captureFold b1 color (neighborsOf b1.size r c) [] b1 [] init
  simpa [handleCaptures] using h

/-! ## The whole-board census partitions the occupied cells -/

theorem mem_allCoords {n : Nat} {p : Nat × Nat} :
    p ∈ allCoords n ↔ p.1 < n ∧ p.2 < n := by
  unfold allCoords
  rw [List.mem_flatMap]
  constructor
  · rintro ⟨r, hr, hp⟩
    rw [List.mem_map] at hp
    obtain ⟨c, hc, hpc⟩ := hp
    rw [List.mem_range] at hr
    rw [List.mem_range] at hc
    subst hpc
    exact ⟨hr, hc⟩
  · rintro ⟨h1, h2⟩
    refine ⟨p.1, List.mem_range.mpr h1, ?_⟩
    rw [List.mem_map]
    exact ⟨p.2, List.mem_range.mpr h2, rfl⟩

theorem cell_white_of_ne {x : Cell} (h1 : x ≠ Cell.empty) (h2 : x ≠ Cell.black) :
    x = Cell.white := by
  cases x
  · exact absurd rfl h1
  · exact absurd rfl h2
  · rfl

/-- Inserting an element related to everything preserves pairwise relations
(used to append a fresh group to either color list). -/
theorem pairwise_insert_middle {α : Type} {R : α → α → Prop}
    (hsymm : ∀ x y, R x y → R y x) {l1 l2 : List α} {a : α}
    (h : List.Pairwise R (l1 ++ l2)) (ha : ∀ x ∈ l1 ++ l2, R a x) :
    List.Pairwise R (l1 ++ a :: l2) := by
  rw [List.pairwise_append] at h ⊢
  obtain ⟨h1, h2, h12⟩ := h
  refine ⟨h1, ?_, ?_⟩
  · rw [List.pairwise_cons]
    refine ⟨fun x hx => ha x (List.mem_append_right _ hx), h2⟩
  · intro x hx y hy
    rcases List.mem_cons.mp hy with rfl | hy'
    · exact hsymm _ _ (ha x (List.mem_append_left _ hx))
    · exact h12 x hx y hy'

/-- The invariant of the census scan: the visited set is exactly the union of
the collected groups, groups are listed under their stones' color, groups are
pairwise disjoint, and every occupied scanned cell is covered. -/
structure CensusInv (b : Board) (done : List (Nat × Nat)) (vis : Finset (Nat × Nat))
    (cen : Census) : Prop where
  vis_iff : ∀ x, x ∈ vis ↔ ∃ gl ∈ cen.black ++ cen.white, x ∈ gl.1
  black_color : ∀ gl ∈ cen.black, ∀ p ∈ gl.1, cellAt b p.1 p.2 = Cell.black
  white_color : ∀ gl ∈ cen.white, ∀ p ∈ gl.1, cellAt b p.1 p.2 = Cell.white
  disj : List.Pairwise (fun g1 g2 => ∀ x, x ∈ g1.1 → x ∉ g2.1) (cen.black ++ cen.white)
  covered : ∀ p ∈ done, cellAt b p.1 p.2 ≠ Cell.empty → p ∈ vis

theorem censusStep_skip {b : Board} {st : Finset (Nat × Nat) × Census} {p : Nat × Nat}
    (h : ¬ (cellAt b p.1 p.2 ≠ Cell.empty ∧ p ∉ st.1)) : censusStep b st p = st := by
  unfold censusStep
  rw [if_neg h]

theorem censusStep_found {b : Board} {vis : Finset (Nat × Nat)} {cen : Census}
    {p : Nat × Nat} {g : List (Nat × Nat)} {l vis' : Finset (Nat × Nat)}
    (h1 : cellAt b p.1 p.2 ≠ Cell.empty) (h2 : p ∉ vis)
    (heq : findGroup b p.1 p.2 (cellAt b p.1 p.2) vis = (some (g, l), vis')) :
    censusStep b (vis, cen) p =
      if g ≠ [] then
        if cellAt b p.1 p.2 = Cell.black then
          (vis', { cen with black := cen.black ++ [(g, l.card)] })
        else
          (vis', { cen with white := cen.white ++ [(g, l.card)] })
      else (vis', cen) := by
  unfold censusStep
  rw [if_pos ⟨h1, h2⟩, heq]

theorem censusFold (b : Board) :
    ∀ (todo done : List (Nat × Nat)) (vis : Finset (Nat × Nat)) (cen : Census),
      CensusInv b done vis cen →
      CensusInv b (done ++ todo)
        ((todo.foldl (censusStep b) (vis, cen)).1)
        ((todo.foldl (censusStep b) (vis, cen)).2) := by
  intro todo
  induction todo with
  | nil =>
    intro done vis cen inv
    simpa using inv
  | cons p todo' ih =>
    intro done vis cen inv
    rw [List.foldl_cons]
    have hassoc : done ++ p :: todo' = (done ++ [p]) ++ todo' := by simp
    rw [hassoc]
    by_cases hcond : cellAt b p.1 p.2 ≠ Cell.empty ∧ p ∉ vis
    · obtain ⟨hocc, hnv⟩ := hcond
      obtain ⟨g, l, heq, hnd, hmem, hlib⟩ :=
        findGroup_correct b (cellAt b p.1 p.2) vis p hocc rfl hnv
      have hpg : p ∈ g := (hmem p).mpr Relation.ReflTransGen.refl
      have hgne : g ≠ [] := List.ne_nil_of_mem hpg
      have hg_color : ∀ x ∈ g, cellAt b x.1 x.2 = cellAt b p.1 p.2 :=
        fun x hx => cellAt_of_reachAvoid rfl ((hmem x).mp hx)
      have hg_nvis : ∀ x ∈ g, x ∉ vis :=
        fun x hx => not_avoid_of_reachAvoid hnv ((hmem x).mp hx)
      have hcov' : ∀ q ∈ done ++ [p], cellAt b q.1 q.2 ≠ Cell.empty →
          q ∈ vis ∪ g.toFinset := by
        intro q hq hocq
        rcases List.mem_append.mp hq with h | h
        · exact Finset.mem_union_left _ (inv.covered q h hocq)
        · rw [List.mem_singleton.mp h]
          exact Finset.mem_union_right _ (List.mem_toFinset.mpr hpg)
      have hgl_sub : ∀ gl ∈ cen.black ++ cen.white, ∀ x ∈ gl.1, x ∈ vis :=
        fun gl hgl x hx => (inv.vis_iff x).mpr ⟨gl, hgl, hx⟩
      have hdisj_new : ∀ gl ∈ cen.black ++ cen.white, ∀ x, x ∈ g → x ∉ gl.1 :=
        fun gl hgl x hx hc => hg_nvis x hx (hgl_sub gl hgl x hc)
      rw [censusStep_found hocc hnv heq, if_pos hgne]
      by_cases hblack : cellAt b p.1 p.2 = Cell.black
      · rw [if_pos hblack]
        have hvi : ∀ x, x ∈ vis ∪ g.toFinset ↔
            ∃ gl ∈ (cen.black ++ [(g, l.card)]) ++ cen.white, x ∈ gl.1 := by
          intro x
          rw [Finset.mem_union, inv.vis_iff x, List.mem_toFinset]
          constructor
          · rintro (⟨gl, hgl, hx⟩ | hx)
            · rcases List.mem_append.mp hgl with h | h
              · exact ⟨gl, List.mem_append_left _ (List.mem_append_left _ h), hx⟩
              · exact ⟨gl, List.mem_append_right _ h, hx⟩
            · exact ⟨(g, l.card), List.mem_append_left _
                (List.mem_append_right _ (List.mem_singleton_self _)), hx⟩
          · rintro ⟨gl, hgl, hx⟩
            rcases List.mem_append.mp hgl with h | h
            · rcases List.mem_append.mp h with h' | h'
              · exact Or.inl ⟨gl, List.mem_append_left _ h', hx⟩
              · rw [List.mem_singleton.mp h'] at hx
                exact Or.inr hx
            · exact Or.inl ⟨gl, List.mem_append_right _ h, hx⟩
        have inv' : CensusInv b (done ++ [p]) (vis ∪ g.toFinset)
            { cen with black := cen.black ++ [(g, l.card)] } := by
          refine ⟨hvi, ?_, inv.white_color, ?_, hcov'⟩
          · intro gl hgl x hx
            rcases List.mem_append.mp hgl with h | h
            · exact inv.black_color gl h x hx
            · rw [List.mem_singleton.mp h] at hx
              exact (hg_color x hx).trans hblack
          · have hresh : cen.black ++ [(g, l.card)] ++ cen.white =
                cen.black ++ ((g, l.card) :: cen.white) := by
              rw [List.append_assoc]
              rfl
            rw [hresh]
            refine pairwise_insert_middle ?_ inv.disj ?_
            · intro x y hxy q hq hqc
              by_cases hqx : q ∈ x.1
              · exact hxy q hqx hq
              · exact hqx hqc
            · intro gl hgl x hx
              exact hdisj_new gl hgl x hx
        exact ih (done ++ [p]) _ _ inv'
      · rw [if_neg hblack]
        have hwhite : cellAt b p.1 p.2 = Cell.white := cell_white_of_ne hocc hblack
        have hvi : ∀ x, x ∈ vis ∪ g.toFinset ↔
            ∃ gl ∈ cen.black ++ (cen.white ++ [(g, l.card)]), x ∈ gl.1 := by
          intro x
          rw [Finset.mem_union, inv.vis_iff x, List.mem_toFinset]
          constructor
          · rintro (⟨gl, hgl, hx⟩ | hx)
            · rcases List.mem_append.mp hgl with h | h
              · exact ⟨gl, List.mem_append_left _ h, hx⟩
              · exact ⟨gl, List.mem_append_right _ (List.mem_append_left _ h), hx⟩
            · exact ⟨(g, l.card), List.mem_append_right _
                (List.mem_append_right _ (List.mem_singleton_self _)), hx⟩
          · rintro ⟨gl, hgl, hx⟩
            rcases List.mem_append.mp hgl with h | h
            · exact Or.inl ⟨gl, List.mem_append_left _ h, hx⟩
            · rcases List.mem_append.mp h with h' | h'
              · exact Or.inl ⟨gl, List.mem_append_right _ h', hx⟩
              · rw [List.mem_singleton.mp h'] at hx
                exact Or.inr hx
        have inv' : CensusInv b (done ++ [p]) (vis ∪ g.toFinset)
            { cen with white := cen.white ++ [(g, l.card)] } := by
          refine ⟨hvi, inv.black_color, ?_, ?_, hcov'⟩
          · intro gl hgl x hx
            rcases List.mem_append.mp hgl with h | h
            · exact inv.white_color gl h x hx
            · rw [List.mem_singleton.mp h] at hx
              exact (hg_color x hx).trans hwhite
          · have hresh : cen.black ++ (cen.white ++ [(g, l.card)]) =
                (cen.black ++ cen.white) ++ [(g, l.card)] := by
              rw [List.append_assoc]
            rw [hresh, List.pairwise_append]
            refine ⟨inv.disj, List.pairwise_singleton _ _, ?_⟩
            intro x hx y hy q hq
            rw [List.mem_singleton.mp hy]
            intro hqg
            exact hdisj_new x hx q hqg hq
        exact ih (done ++ [p]) _ _ inv'
    · rw [censusStep_skip hcond]
      push_neg at hcond
      have inv' : CensusInv b (done ++ [p]) vis cen := by
        refine ⟨inv.vis_iff, inv.black_color, inv.white_color, inv.disj, ?_⟩
        intro q hq hocc
        rcases List.mem_append.mp hq with h | h
        · exact inv.covered q h hocc
        · rw [List.mem_singleton.mp h] at hocc ⊢
          exact hcond hocc
      exact ih (done ++ [p]) vis cen inv'

/-! ## Example positions used by witnesses and counterexamples -/

/-- An empty board of the given size. -/
def emptyBoard (n : Nat) : Board := { size := n, cells := fun _ _ => Cell.empty }

/-- 9×9 board with a single black stone in the corner. -/
def cornerBoard : Board :=
  { size := 9, cells := fun r c => if r = 0 ∧ c = 0 then Cell.black else Cell.empty }

/-- 9×9 board with a white stone at (3,3) surrounded by black on three sides
(the capture scenario of the specification). -/
def captBoard : Board :=
  { size := 9, cells := fun r c =>
      if (r, c) = (3, 3) then Cell.white
      else if (r, c) = (2, 3) ∨ (r, c) = (4, 3) ∨ (r, c) = (3, 2) then Cell.black
      else Cell.empty }

/-- Game state for the capture scenario. -/
def captState : GameState := { board := captBoard, history := [], koPoint := none }

/-- 5×5 board with a lone white corner stone about to be captured. -/
def koBoard : Board :=
  { size := 5, cells := fun r c =>
      if (r, c) = (0, 0) then Cell.white
      else if (r, c) = (1, 0) then Cell.black
      else Cell.empty }

/-- Game state for the single-stone capture. -/
def koState : GameState := { board := koBoard, history := [], koPoint := none }

/-- 7×7 empty board whose last history move was at (0,0). -/
def tenukiProbe : GameState :=
  { board := emptyBoard 7, history := [((0, 0), Cell.black)], koPoint := none }

/-- 5×5 board: four black stones two away from (2,2) in each direction, and a
white stone adjacent at (2,3). -/
def opjBoard : Board :=
  { size := 5, cells := fun r c =>
      if (r, c) = (0, 2) ∨ (r, c) = (4, 2) ∨ (r, c) = (2, 0) ∨ (r, c) = (2, 4) then Cell.black
      else if (r, c) = (2, 3) then Cell.white
      else Cell.empty }

/-- Game state on `opjBoard`. -/
def opjState : GameState := { board := opjBoard, history := [], koPoint := none }

/-- 5×5 board: black stones on the four orthogonal neighbors of (1,1)
(the suicide scenario of the specification, for white playing (1,1)). -/
def suiBoard : Board :=
  { size := 5, cells := fun r c =>
      if (r, c) = (0, 1) ∨ (r, c) = (1, 0) ∨ (r, c) = (2, 1) ∨ (r, c) = (1, 2) then Cell.black
      else Cell.empty }

/-- Game state on `suiBoard`. -/
def suiState : GameState := { board := suiBoard, history := [], koPoint := none }

/-- The `tenuki` entry of an analysis result. -/
def resultTenuki : AnalyzeResult → Option Bool
  | AnalyzeResult.found a => some a.tenuki
  | AnalyzeResult.failure _ => none

/-- The `suicide` entry of an analysis result. -/
def resultSuicide : AnalyzeResult → Option Bool
  | AnalyzeResult.found a => some a.suicide
  | AnalyzeResult.failure _ => none

/-- The `one_point_jump` entry of an analysis result (`none` when the result
is an error dict, `some none` when the key is absent). -/
def resultOPJ : AnalyzeResult → Option (Option Bool)
  | AnalyzeResult.found a => some a.one_point_jump
  | AnalyzeResult.failure _ => none

/-- Whether the result is the error dict. -/
def isFailure : AnalyzeResult → Bool
  | AnalyzeResult.failure _ => true
  | AnalyzeResult.found _ => false

/-- True when the analysis mapping carries none of the fields computed after
the suicide short-circuit. -/
def shapeFieldsAbsent : AnalyzeResult → Bool
  | AnalyzeResult.found a =>
    decide (a.peep = none ∧ a.completes_empty_triangle = none ∧
      a.completes_tiger_mouth = none ∧ a.completes_bamboo_joint = none ∧
      a.one_point_jump = none ∧ a.knights_move = none ∧ a.diagonal = none ∧
      a.throw_in = none)
  | AnalyzeResult.failure _ => false

/-! ## The claims -/

/-- **C1.** `play_move(r, c, color)` raises exactly when the coordinate is out
of bounds, the cell is occupied, or the coordinate equals the ko marker; and
on failure the state of `self` (grid, history, ko marker) is returned
unchanged — all raises precede every mutation. -/
theorem playMove_error_iff (s : GameState) (r c : Int) (color : Cell) :
    ((∃ e, (playMove s r c color).1 = Except.error e) ↔
      (¬ (0 ≤ r ∧ r < (s.board.size : Int) ∧ 0 ≤ c ∧ c < (s.board.size : Int)) ∨
        cellAt s.board r.toNat c.toNat ≠ Cell.empty ∨
        s.koPoint = some (r.toNat, c.toNat))) ∧
    (∀ e, (playMove s r c color).1 = Except.error e → (playMove s r c color).2 = s) := by
  unfold playMove
  by_cases h1 : 0 ≤ r ∧ r < (s.board.size : Int) ∧ 0 ≤ c ∧ c < (s.board.size : Int)
  · rw [if_neg (fun hc => hc h1)]
    by_cases h2 : cellAt s.board r.toNat c.toNat ≠ Cell.empty
    · rw [if_pos h2]
      exact ⟨⟨fun _ => Or.inr (Or.inl h2), fun _ => ⟨_, rfl⟩⟩, fun _ _ => rfl⟩
    · rw [if_neg h2]
      by_cases h3 : s.koPoint = some (r.toNat, c.toNat)
      · rw [if_pos h3]
        exact ⟨⟨fun _ => Or.inr (Or.inr h3), fun _ => ⟨_, rfl⟩⟩, fun _ _ => rfl⟩
      · rw [if_neg h3]
        refine ⟨⟨?_, ?_⟩, ?_⟩
        · rintro ⟨e, he⟩
          cases he
        · rintro (h | h | h)
          · exact absurd h1 h
          · exact absurd h h2
          · exact absurd h h3
        · intro e he
          cases he
  · rw [if_pos h1]
    exact ⟨⟨fun _ => Or.inl h1, fun _ => ⟨_, rfl⟩⟩, fun _ _ => rfl⟩

theorem playMove_error_iff_witness :
    (((∃ e, (playMove captState 3 3 Cell.black).1 = Except.error e) ↔
      (¬ ((0:Int) ≤ 3 ∧ (3:Int) < (captState.board.size : Int) ∧ (0:Int) ≤ 3 ∧
          (3:Int) < (captState.board.size : Int)) ∨
        cellAt captState.board (3:Int).toNat (3:Int).toNat ≠ Cell.empty ∨
        captState.koPoint = some ((3:Int).toNat, (3:Int).toNat))) ∧
    (∀ e, (playMove captState 3 3 Cell.black).1 = Except.error e →
      (playMove captState 3 3 Cell.black).2 = captState)) ∧
    (playMove captState 3 3 Cell.black).1 = Except.error "Intersection is already occupied." :=
  ⟨playMove_error_iff captState 3 3 Cell.black, rfl⟩

/-- **C5.** `analyze_move` never mutates the live engine state — the grid,
history and ko marker after the call equal those before — and calling it
twice in a row with identical arguments yields identical results. -/
theorem analyzeMove_pure (s : GameState) (r c : Int) (color : Cell) :
    (analyzeMove s r c color).2 = s ∧
    analyzeMove ((analyzeMove s r c color).2) r c color = analyzeMove s r c color :=
  ⟨rfl, rfl⟩

/-- **C3.** After a successful `play_move`, the ko marker holds coordinate `p`
exactly when the move captured precisely the stone at `p`; any successful
move with a capture count other than one clears the marker. -/
theorem playMove_ko (s : GameState) (r c : Int) (color : Cell) (s' : GameState)
    (hok : playMove s r c color = (Except.ok (), s')) :
    (∀ p, s'.koPoint = some p ↔
      (placeAndCapture s.board r.toNat c.toNat color).2 = [p]) ∧
    ((placeAndCapture s.board r.toNat c.toNat color).2.length ≠ 1 →
      s'.koPoint = none) := by
  unfold playMove at hok
  by_cases h1 : 0 ≤ r ∧ r < (s.board.size : Int) ∧ 0 ≤ c ∧ c < (s.board.size : Int)
  · rw [if_neg (fun hc => hc h1)] at hok
    by_cases h2 : cellAt s.board r.toNat c.toNat ≠ Cell.empty
    · rw [if_pos h2] at hok
      exact Except.noConfusion (congrArg Prod.fst hok)
    · rw [if_neg h2] at hok
      by_cases h3 : s.koPoint = some (r.toNat, c.toNat)
      · rw [if_pos h3] at hok
        exact Except.noConfusion (congrArg Prod.fst hok)
      · rw [if_neg h3] at hok
        have hs' := congrArg Prod.snd hok
        dsimp only at hs'
        rw [← hs']
        dsimp only
        by_cases hlen : (placeAndCapture s.board r.toNat c.toNat color).2.length = 1
        · obtain ⟨a, ha⟩ := List.length_eq_one.mp hlen
          constructor
          · intro p
            rw [if_pos hlen, ha, List.head?_cons]
            constructor
            · intro h
              rw [Option.some_inj] at h
              rw [h]
            · intro h
              rw [List.cons.injEq] at h
              rw [h.1]
          · intro h
            exact absurd hlen h
        · constructor
          · intro p
            rw [if_neg hlen]
            constructor
            · intro h
              cases h
            · intro h
              rw [h] at hlen
              exact absurd rfl hlen
          · intro _
            rw [if_neg hlen]
  · rw [if_pos h1] at hok
    exact Except.noConfusion (congrArg Prod.fst hok)

theorem playMove_ko_witness :
    ((∀ p, (playMove koState 0 1 Cell.black).2.koPoint = some p ↔
      (placeAndCapture koState.board (0:Int).toNat (1:Int).toNat Cell.black).2 = [p]) ∧
    ((placeAndCapture koState.board (0:Int).toNat (1:Int).toNat Cell.black).2.length ≠ 1 →
      (playMove koState 0 1 Cell.black).2.koPoint = none)) ∧
    (playMove koState 0 1 Cell.black).2.koPoint = some (0, 0) ∧
    (playMove (playMove koState 0 1 Cell.black).2 0 0 Cell.white).1 =
      Except.error "Illegal ko capture." :=
  ⟨playMove_ko koState 0 1 Cell.black (playMove koState 0 1 Cell.black).2 rfl, rfl, rfl⟩

/-! ## Facts about the analysis construction -/

theorem analyzeLegal_found (s : GameState) (rn cn : Nat) (color : Cell) :
    ∃ a, analyzeLegal s rn cn color = AnalyzeResult.found a := by
  unfold analyzeLegal
  by_cases h : (baseAnalysis s rn cn color).suicide = true
  · rw [if_pos h]
    exact ⟨_, rfl⟩
  · rw [if_neg h]
    exact ⟨_, rfl⟩

theorem fullAnalysis_suicide (s : GameState) (rn cn : Nat) (color : Cell) :
    (fullAnalysis s rn cn color).suicide = (baseAnalysis s rn cn color).suicide := rfl

theorem fullAnalysis_takes_ko (s : GameState) (rn cn : Nat) (color : Cell) :
    (fullAnalysis s rn cn color).takes_ko = (baseAnalysis s rn cn color).takes_ko := rfl

theorem fullAnalysis_tenuki (s : GameState) (rn cn : Nat) (color : Cell) :
    (fullAnalysis s rn cn color).tenuki =
      match s.history.getLast? with
      | some (lastMove, _) =>
        decide (((rn : Int) - lastMove.1) ^ 2 + ((cn : Int) - lastMove.2) ^ 2 > 50)
      | none => false := rfl

theorem fullAnalysis_one_point_jump (s : GameState) (rn cn : Nat) (color : Cell) :
    (fullAnalysis s rn cn color).one_point_jump = some
      (checkPattern s.board rn cn color [(-2, 0), (2, 0), (0, -2), (0, 2)] &&
        !checkPattern s.board rn cn color [(-1, 0), (1, 0), (0, -1), (0, 1)]) := rfl

theorem baseAnalysis_suicide (s : GameState) (rn cn : Nat) (color : Cell) :
    (baseAnalysis s rn cn color).suicide =
      decide ((ownGroupLibs s rn cn color).2.card = 0 ∧
        (placeAndCapture s.board rn cn color).2 = []) := rfl

theorem baseAnalysis_takes_ko (s : GameState) (rn cn : Nat) (color : Cell) :
    (baseAnalysis s rn cn color).takes_ko = decide (s.koPoint = some (rn, cn)) := rfl

/-- Inverting a non-error analysis: all three guards passed, and the result
is the legal-move analysis. -/
theorem analyzeMoveCore_found_inv (s : GameState) (r c : Int) (color : Cell)
    (h : isFailure (analyzeMoveCore s r c color) = false) :
    (0 ≤ r ∧ r < (s.board.size : Int) ∧ 0 ≤ c ∧ c < (s.board.size : Int)) ∧
    cellAt s.board r.toNat c.toNat = Cell.empty ∧
    s.koPoint ≠ some (r.toNat, c.toNat) ∧
    analyzeMoveCore s r c color = analyzeLegal s r.toNat c.toNat color := by
  unfold analyzeMoveCore at h ⊢
  by_cases h1 : 0 ≤ r ∧ r < (s.board.size : Int) ∧ 0 ≤ c ∧ c < (s.board.size : Int)
  · rw [if_neg (fun hc => hc h1)] at h ⊢
    by_cases h2 : cellAt s.board r.toNat c.toNat ≠ Cell.empty
    · rw [if_pos h2] at h
      exact Bool.noConfusion h
    · rw [if_neg h2] at h ⊢
      by_cases h3 : s.koPoint = some (r.toNat, c.toNat)
      · rw [if_pos h3] at h
        exact Bool.noConfusion h
      · rw [if_neg h3] at h ⊢
        exact ⟨h1, not_ne_iff.mp h2, h3, rfl⟩
  · rw [if_pos h1] at h
    exact Bool.noConfusion h

/-- **C6.** In every returned analysis mapping, `suicide` is true exactly when
the placed stone's own group has zero liberties after simulated capture
resolution and no stone was captured; and a suicide verdict short-circuits:
none of the shape/tactic fields beyond the initial dict are present. -/
theorem analyzeMove_suicide (s : GameState) (r c : Int) (color : Cell)
    (hres : isFailure (analyzeMove s r c color).1 = false) :
    (resultSuicide (analyzeMove s r c color).1 = some true ↔
      ((ownGroupLibs s r.toNat c.toNat color).2.card = 0 ∧
        (placeAndCapture s.board r.toNat c.toNat color).2 = [])) ∧
    (resultSuicide (analyzeMove s r c color).1 = some true →
      shapeFieldsAbsent (analyzeMove s r c color).1 = true) := by
  have hres' : isFailure (analyzeMoveCore s r c color) = false := hres
  obtain ⟨h1, h2, h3, heq⟩ := analyzeMoveCore_found_inv s r c color hres'
  have hgoal : (analyzeMove s r c color).1 = analyzeLegal s r.toNat c.toNat color := heq
  rw [hgoal]
  unfold analyzeLegal
  by_cases hsui : (baseAnalysis s r.toNat c.toNat color).suicide = true
  · rw [if_pos hsui]
    constructor
    · rw [show resultSuicide (AnalyzeResult.found (baseAnalysis s r.toNat c.toNat color)) =
        some ((baseAnalysis s r.toNat c.toNat color).suicide) from rfl, baseAnalysis_suicide]
      simp only [Option.some.injEq, decide_eq_true_eq]
    · intro _
      rfl
  · rw [if_neg hsui]
    rw [Bool.not_eq_true] at hsui
    constructor
    · rw [show resultSuicide (AnalyzeResult.found (fullAnalysis s r.toNat c.toNat color)) =
        some ((fullAnalysis s r.toNat c.toNat color).suicide) from rfl,
        fullAnalysis_suicide, hsui]
      constructor
      · intro hcontra
        exact Bool.noConfusion (Option.some.inj hcontra)
      · intro hP
        have hT : (baseAnalysis s r.toNat c.toNat color).suicide = true := by
          rw [baseAnalysis_suicide]
          exact decide_eq_true hP
        exact Bool.noConfusion (hsui.symm.trans hT)
    · intro hcontra
      rw [show resultSuicide (AnalyzeResult.found (fullAnalysis s r.toNat c.toNat color)) =
        some ((fullAnalysis s r.toNat c.toNat color).suicide) from rfl,
        fullAnalysis_suicide, hsui] at hcontra
      exact Bool.noConfusion (Option.some.inj hcontra)

theorem analyzeMove_suicide_witness :
    ((resultSuicide (analyzeMove suiState 1 1 Cell.white).1 = some true ↔
      ((ownGroupLibs suiState (1 : Int).toNat (1 : Int).toNat Cell.white).2.card = 0 ∧
        (placeAndCapture suiState.board (1 : Int).toNat (1 : Int).toNat Cell.white).2 = [])) ∧
     (resultSuicide (analyzeMove suiState 1 1 Cell.white).1 = some true →
       shapeFieldsAbsent (analyzeMove suiState 1 1 Cell.white).1 = true)) ∧
    resultSuicide (analyzeMove suiState 1 1 Cell.white).1 = some true :=
  ⟨analyzeMove_suicide suiState 1 1 Cell.white rfl, rfl⟩

/-- **C9.** `analyze_move` returns the error dict exactly when the target is
out of bounds, occupied, or equals the ko marker (it returns a value rather
than raising); and in every returned analysis mapping the inapplicable
fields are false: `takes_ko` is always false there (a ko-illegal target
never reaches the dict), and with no history `tenuki` is false. -/
theorem analyzeMove_error_iff (s : GameState) (r c : Int) (color : Cell) :
    ((∃ msg, (analyzeMove s r c color).1 = AnalyzeResult.failure msg) ↔
      (¬ (0 ≤ r ∧ r < (s.board.size : Int) ∧ 0 ≤ c ∧ c < (s.board.size : Int)) ∨
        cellAt s.board r.toNat c.toNat ≠ Cell.empty ∨
        s.koPoint = some (r.toNat, c.toNat))) ∧
    (∀ a, (analyzeMove s r c color).1 = AnalyzeResult.found a →
      a.takes_ko = false ∧ (s.history = [] → a.tenuki = false)) := by
  have hcore : (analyzeMove s r c color).1 = analyzeMoveCore s r c color := rfl
  rw [hcore]
  unfold analyzeMoveCore
  by_cases h1 : 0 ≤ r ∧ r < (s.board.size : Int) ∧ 0 ≤ c ∧ c < (s.board.size : Int)
  · rw [if_neg (fun hc => hc h1)]
    by_cases h2 : cellAt s.board r.toNat c.toNat ≠ Cell.empty
    · rw [if_pos h2]
      refine ⟨⟨fun _ => Or.inr (Or.inl h2), fun _ => ⟨_, rfl⟩⟩, ?_⟩
      intro a ha
      exact AnalyzeResult.noConfusion ha
    · rw [if_neg h2]
      by_cases h3 : s.koPoint = some (r.toNat, c.toNat)
      · rw [if_pos h3]
        refine ⟨⟨fun _ => Or.inr (Or.inr h3), fun _ => ⟨_, rfl⟩⟩, ?_⟩
        intro a ha
        exact AnalyzeResult.noConfusion ha
      · rw [if_neg h3]
        obtain ⟨a0, ha0⟩ := analyzeLegal_found s r.toNat c.toNat color
        constructor
        · rw [ha0]
          constructor
          · rintro ⟨msg, hmsg⟩
            exact AnalyzeResult.noConfusion hmsg
          · rintro (h | h | h)
            · exact absurd h1 h
            · exact absurd h h2
            · exact absurd h h3
        · intro a ha
          have htk : a.takes_ko = false := by
            have hbase : (baseAnalysis s r.toNat c.toNat color).takes_ko = false := by
              rw [baseAnalysis_takes_ko]
              exact decide_eq_false h3
            unfold analyzeLegal at ha
            by_cases hsui : (baseAnalysis s r.toNat c.toNat color).suicide = true
            · rw [if_pos hsui] at ha
              rw [← AnalyzeResult.found.inj ha]
              exact hbase
            · rw [if_neg hsui] at ha
              rw [← AnalyzeResult.found.inj ha, fullAnalysis_takes_ko]
              exact hbase
          refine ⟨htk, ?_⟩
          intro hhist
          unfold analyzeLegal at ha
          by_cases hsui : (baseAnalysis s r.toNat c.toNat color).suicide = true
          · rw [if_pos hsui] at ha
            rw [← AnalyzeResult.found.inj ha]
            rfl
          · rw [if_neg hsui] at ha
            rw [← AnalyzeResult.found.inj ha, fullAnalysis_tenuki, hhist]
            rfl
  · rw [if_pos h1]
    refine ⟨⟨fun _ => Or.inl h1, fun _ => ⟨_, rfl⟩⟩, ?_⟩
    intro a ha
    exact AnalyzeResult.noConfusion ha

theorem analyzeMove_error_iff_witness :
    (((∃ msg, (analyzeMove captState (-1) 4 Cell.black).1 = AnalyzeResult.failure msg) ↔
      (¬ ((0 : Int) ≤ -1 ∧ (-1 : Int) < (captState.board.size : Int) ∧ (0 : Int) ≤ 4 ∧
          (4 : Int) < (captState.board.size : Int)) ∨
        cellAt captState.board (-1 : Int).toNat (4 : Int).toNat ≠ Cell.empty ∨
        captState.koPoint = some ((-1 : Int).toNat, (4 : Int).toNat))) ∧
    (∀ a, (analyzeMove captState (-1) 4 Cell.black).1 = AnalyzeResult.found a →
      a.takes_ko = false ∧ (captState.history = [] → a.tenuki = false))) ∧
    (analyzeMove captState (-1) 4 Cell.black).1 =
      AnalyzeResult.failure "Move is outside the board." :=
  ⟨analyzeMove_error_iff captState (-1) 4 Cell.black, rfl⟩

/-! ## Tenuki (C4) and one-point jump (C10) -/

/-- **C4, counterexample.**  With the previous move at (0,0), the candidate
(0,6) lies at squared distance 36 > 25 from it, yet the returned mapping has
`tenuki = false`: the code's threshold is 50, not the specified 25. -/
theorem tenuki_threshold_cex :
    resultTenuki (analyzeMove tenukiProbe 0 6 Cell.white).1 = some false ∧
    ((0 : Int) - 0) ^ 2 + ((6 : Int) - 0) ^ 2 > 25 ∧
    tenukiProbe.history.getLast? = some ((0, 0), Cell.black) :=
  ⟨rfl, by decide, rfl⟩

/-- **C4, amended.**  For a candidate move on which `analyze_move` returns an
analysis mapping that is not a suicide short-circuit: with no history `tenuki`
is false, and otherwise `tenuki` is true exactly when the squared Euclidean
distance from the most recent history move exceeds 50. -/
theorem analyzeMove_tenuki (s : GameState) (r c : Int) (color : Cell)
    (hres : isFailure (analyzeMove s r c color).1 = false)
    (hsui : resultSuicide (analyzeMove s r c color).1 = some false) :
    (s.history.getLast? = none → resultTenuki (analyzeMove s r c color).1 = some false) ∧
    (∀ lm col', s.history.getLast? = some (lm, col') →
      (resultTenuki (analyzeMove s r c color).1 = some true ↔
        (r - (lm.1 : Int)) ^ 2 + (c - (lm.2 : Int)) ^ 2 > 50)) := by
  have hres' : isFailure (analyzeMoveCore s r c color) = false := hres
  obtain ⟨h1, h2, h3, heq⟩ := analyzeMoveCore_found_inv s r c color hres'
  have hgoal : (analyzeMove s r c color).1 = analyzeLegal s r.toNat c.toNat color := heq
  rw [hgoal] at hsui ⊢
  unfold analyzeLegal at hsui ⊢
  by_cases hsb : (baseAnalysis s r.toNat c.toNat color).suicide = true
  · rw [if_pos hsb] at hsui
    rw [show resultSuicide (AnalyzeResult.found (baseAnalysis s r.toNat c.toNat color)) =
      some ((baseAnalysis s r.toNat c.toNat color).suicide) from rfl, hsb] at hsui
    exact absurd (Option.some.inj hsui) (by decide)
  · rw [if_neg hsb]
    have hrn : ((r.toNat : Int)) = r := Int.toNat_of_nonneg h1.1
    have hcn : ((c.toNat : Int)) = c := Int.toNat_of_nonneg h1.2.2.1
    constructor
    · intro hnone
      rw [show resultTenuki (AnalyzeResult.found (fullAnalysis s r.toNat c.toNat color)) =
        some ((fullAnalysis s r.toNat c.toNat color).tenuki) from rfl,
        fullAnalysis_tenuki, hnone]
    · intro lm col' hlast
      rw [show resultTenuki (AnalyzeResult.found (fullAnalysis s r.toNat c.toNat color)) =
        some ((fullAnalysis s r.toNat c.toNat color).tenuki) from rfl,
        fullAnalysis_tenuki, hlast]
      have hred : (match (some (lm, col') : Option ((Nat × Nat) × Cell)) with
          | some (lastMove, _) =>
            decide (((r.toNat : Int) - lastMove.1) ^ 2 + ((c.toNat : Int) - lastMove.2) ^ 2 > 50)
          | none => false) =
          decide (((r.toNat : Int) - lm.1) ^ 2 + ((c.toNat : Int) - lm.2) ^ 2 > 50) := rfl
      rw [hred, hrn, hcn]
      simp only [Option.some.injEq, decide_eq_true_eq]

theorem analyzeMove_tenuki_witness :
    ((tenukiProbe.history.getLast? = none →
      resultTenuki (analyzeMove tenukiProbe 6 6 Cell.white).1 = some false) ∧
     (∀ lm col', tenukiProbe.history.getLast? = some (lm, col') →
       (resultTenuki (analyzeMove tenukiProbe 6 6 Cell.white).1 = some true ↔
         ((6 : Int) - (lm.1 : Int)) ^ 2 + ((6 : Int) - (lm.2 : Int)) ^ 2 > 50))) ∧
    resultTenuki (analyzeMove tenukiProbe 6 6 Cell.white).1 = some true :=
  ⟨analyzeMove_tenuki tenukiProbe 6 6 Cell.white rfl rfl, rfl⟩

/-- `_check_pattern` as a proposition: every offset lands on the board and
holds a `color` stone. -/
theorem checkPattern_iff (b : Board) (r c : Int) (color : Cell) (pats : List (Int × Int)) :
    checkPattern b r c color pats = true ↔
      ∀ d ∈ pats, (0 ≤ r + d.1 ∧ r + d.1 < (b.size : Int) ∧ 0 ≤ c + d.2 ∧
        c + d.2 < (b.size : Int)) ∧
        cellAt b (r + d.1).toNat (c + d.2).toNat = color := by
  unfold checkPattern
  rw [List.all_eq_true]
  constructor
  · intro h d hd
    have hh := h d hd
    rw [Bool.and_eq_true, decide_eq_true_eq, decide_eq_true_eq] at hh
    exact hh
  · intro h d hd
    rw [Bool.and_eq_true, decide_eq_true_eq, decide_eq_true_eq]
    exact h d hd

/-- **C10, counterexample.**  On `opjBoard`, black at (2,2) is classified as a
one-point jump although the orthogonally adjacent on-board intersection (2,3)
is occupied (by a white stone): the code only requires that not all four
adjacent cells hold same-color stones. -/
theorem one_point_jump_claim_cex :
    resultOPJ (analyzeMove opjState 2 2 Cell.black).1 = some (some true) ∧
    (2, 3) ∈ neighborsOf opjState.board.size 2 2 ∧
    cellAt opjState.board 2 3 ≠ Cell.empty :=
  ⟨rfl, by decide, by decide⟩

/-- **C10, amended.**  When the returned mapping has `one_point_jump` true,
all four points two away orthogonally are on-board same-color stones, and it
is not the case that all four orthogonally adjacent intersections are
on-board same-color stones. -/
theorem analyzeMove_one_point_jump (s : GameState) (r c : Int) (color : Cell)
    (h : resultOPJ (analyzeMove s r c color).1 = some (some true)) :
    (∀ d ∈ [((-2 : Int), (0 : Int)), (2, 0), (0, -2), (0, 2)],
      (0 ≤ r + d.1 ∧ r + d.1 < (s.board.size : Int) ∧ 0 ≤ c + d.2 ∧
        c + d.2 < (s.board.size : Int)) ∧
        cellAt s.board (r + d.1).toNat (c + d.2).toNat = color) ∧
    ¬ (∀ d ∈ [((-1 : Int), (0 : Int)), (1, 0), (0, -1), (0, 1)],
      (0 ≤ r + d.1 ∧ r + d.1 < (s.board.size : Int) ∧ 0 ≤ c + d.2 ∧
        c + d.2 < (s.board.size : Int)) ∧
        cellAt s.board (r + d.1).toNat (c + d.2).toNat = color) := by
  have hcore : (analyzeMove s r c color).1 = analyzeMoveCore s r c color := rfl
  rw [hcore] at h
  have hres' : isFailure (analyzeMoveCore s r c color) = false := by
    cases hA : analyzeMoveCore s r c color with
    | failure msg =>
      rw [hA] at h
      exact Option.noConfusion h
    | found a =>
      rfl
  obtain ⟨h1, h2, h3, heq⟩ := analyzeMoveCore_found_inv s r c color hres'
  rw [heq] at h
  unfold analyzeLegal at h
  by_cases hsb : (baseAnalysis s r.toNat c.toNat color).suicide = true
  · rw [if_pos hsb] at h
    rw [show resultOPJ (AnalyzeResult.found (baseAnalysis s r.toNat c.toNat color)) =
      some ((baseAnalysis s r.toNat c.toNat color).one_point_jump) from rfl] at h
    exact Option.noConfusion (Option.some.inj h)
  · rw [if_neg hsb] at h
    rw [show resultOPJ (AnalyzeResult.found (fullAnalysis s r.toNat c.toNat color)) =
      some ((fullAnalysis s r.toNat c.toNat color).one_point_jump) from rfl,
      fullAnalysis_one_point_jump] at h
    have hb := Option.some.inj (Option.some.inj h)
    rw [Bool.and_eq_true, Bool.not_eq_true'] at hb
    have hrn : ((r.toNat : Int)) = r := Int.toNat_of_nonneg h1.1
    have hcn : ((c.toNat : Int)) = c := Int.toNat_of_nonneg h1.2.2.1
    rw [hrn, hcn] at hb
    constructor
    · exact (checkPattern_iff s.board r c color _).mp hb.1
    · intro hforall
      have hp2 := (checkPattern_iff s.board r c color _).mpr hforall
      exact Bool.noConfusion (hb.2.symm.trans hp2)

theorem analyzeMove_one_point_jump_witness :
    (∀ d ∈ [((-2 : Int), (0 : Int)), (2, 0), (0, -2), (0, 2)],
      ((0 : Int) ≤ 2 + d.1 ∧ (2 : Int) + d.1 < (opjState.board.size : Int) ∧
        (0 : Int) ≤ 2 + d.2 ∧ (2 : Int) + d.2 < (opjState.board.size : Int)) ∧
        cellAt opjState.board ((2 : Int) + d.1).toNat ((2 : Int) + d.2).toNat = Cell.black) ∧
    ¬ (∀ d ∈ [((-1 : Int), (0 : Int)), (1, 0), (0, -1), (0, 1)],
      ((0 : Int) ≤ 2 + d.1 ∧ (2 : Int) + d.1 < (opjState.board.size : Int) ∧
        (0 : Int) ≤ 2 + d.2 ∧ (2 : Int) + d.2 < (opjState.board.size : Int)) ∧
        cellAt opjState.board ((2 : Int) + d.1).toNat ((2 : Int) + d.2).toNat = Cell.black) :=
  analyzeMove_one_point_jump opjState 2 2 Cell.black rfl

/-- **C2.** On the post-placement board, `_handle_captures` removes exactly
the cells described by the order-free predicate `CapturedP` — every stone of
every opposing group adjacent to the move with zero liberties on the
post-placement grid — and the returned captured list holds exactly those
cells; every mover-colored stone (the placed stone and its group included,
even with zero liberties) is untouched, and an opposing group retaining at
least one liberty is untouched. -/
theorem handleCaptures_exact (b1 : Board) (r c : Nat) (color : Cell)
    (hcolor : color = Cell.black ∨ color = Cell.white) :
    (∀ p, CapturedP b1 r c color p →
      cellAt (handleCaptures b1 r c color).1 p.1 p.2 = Cell.empty) ∧
    (∀ p, ¬ CapturedP b1 r c color p →
      cellAt (handleCaptures b1 r c color).1 p.1 p.2 = cellAt b1 p.1 p.2) ∧
    (∀ p, p ∈ (handleCaptures b1 r c color).2 ↔ CapturedP b1 r c color p) ∧
    (∀ p : Nat × Nat, cellAt b1 p.1 p.2 = color →
      cellAt (handleCaptures b1 r c color).1 p.1 p.2 = color) ∧
    (∀ p : Nat × Nat, cellAt b1 p.1 p.2 = opponent color → CompLib b1 (opponent color) p ≠ ∅ →
      cellAt (handleCaptures b1 r c color).1 p.1 p.2 = cellAt b1 p.1 p.2) := by
  have inv := captInv_handleCaptures b1 r c color
  refine ⟨inv.removed, inv.kept, inv.caps_iff, ?_, ?_⟩
  · intro p hp
    have hnc : ¬ CapturedP b1 r c color p := by
      intro hc
      exact opponent_ne_self hcolor ((hp.symm.trans (cellAt_of_capturedBy hc)).symm)
    rw [inv.kept p hnc]
    exact hp
  · intro p hp hl
    have hnc : ¬ CapturedP b1 r c color p := by
      intro hc
      obtain ⟨nb, hm, hcnb, hr, hlc⟩ := hc
      rw [compLib_congr (opponent_ne_empty color) hcnb hr] at hlc
      exact hl hlc
    exact inv.kept p hnc

theorem handleCaptures_exact_witness :
    ((∀ p, CapturedP (setCell captBoard 3 4 Cell.black) 3 4 Cell.black p →
      cellAt (handleCaptures (setCell captBoard 3 4 Cell.black) 3 4 Cell.black).1 p.1 p.2 =
        Cell.empty) ∧
    (∀ p, ¬ CapturedP (setCell captBoard 3 4 Cell.black) 3 4 Cell.black p →
      cellAt (handleCaptures (setCell captBoard 3 4 Cell.black) 3 4 Cell.black).1 p.1 p.2 =
        cellAt (setCell captBoard 3 4 Cell.black) p.1 p.2) ∧
    (∀ p, p ∈ (handleCaptures (setCell captBoard 3 4 Cell.black) 3 4 Cell.black).2 ↔
      CapturedP (setCell captBoard 3 4 Cell.black) 3 4 Cell.black p) ∧
    (∀ p : Nat × Nat, cellAt (setCell captBoard 3 4 Cell.black) p.1 p.2 = Cell.black →
      cellAt (handleCaptures (setCell captBoard 3 4 Cell.black) 3 4 Cell.black).1 p.1 p.2 =
        Cell.black) ∧
    (∀ p : Nat × Nat, cellAt (setCell captBoard 3 4 Cell.black) p.1 p.2 = opponent Cell.black →
      CompLib (setCell captBoard 3 4 Cell.black) (opponent Cell.black) p ≠ ∅ →
      cellAt (handleCaptures (setCell captBoard 3 4 Cell.black) 3 4 Cell.black).1 p.1 p.2 =
        cellAt (setCell captBoard 3 4 Cell.black) p.1 p.2)) ∧
    (handleCaptures (setCell captBoard 3 4 Cell.black) 3 4 Cell.black).2 = [(3, 3)] ∧
    cellAt (handleCaptures (setCell captBoard 3 4 Cell.black) 3 4 Cell.black).1 3 3 =
      Cell.empty :=
  ⟨handleCaptures_exact (setCell captBoard 3 4 Cell.black) 3 4 Cell.black (Or.inl rfl),
    rfl, rfl⟩

theorem findGroup_group_spec_witness :
    ((cellAt cornerBoard 0 0 = Cell.empty → findGroup cornerBoard 0 0 Cell.black ∅ = (none, ∅)) ∧
     (cellAt cornerBoard 0 0 = Cell.black →
       ∃ g l, findGroup cornerBoard 0 0 Cell.black ∅ = (some (g, l), g.toFinset) ∧
         (0, 0) ∈ g ∧
         (∀ p ∈ g, cellAt cornerBoard p.1 p.2 = Cell.black) ∧
         (∀ p ∈ g, ConnWithin cornerBoard.size {x | x ∈ g} (0, 0) p) ∧
         (∀ T : Set (Nat × Nat), (0, 0) ∈ T →
           (∀ p ∈ T, cellAt cornerBoard p.1 p.2 = Cell.black) →
           (∀ p ∈ T, ConnWithin cornerBoard.size T (0, 0) p) → ∀ p ∈ T, p ∈ g) ∧
         (∀ e, e ∈ l ↔ cellAt cornerBoard e.1 e.2 = Cell.empty ∧
           ∃ p ∈ g, e ∈ neighborsOf cornerBoard.size p.1 p.2))) ∧
    ((findGroup cornerBoard 0 0 Cell.black ∅).1.getD ([], ∅)).2.card = 2 :=
  ⟨findGroup_group_spec cornerBoard 0 0 Cell.black (by decide), by decide⟩

/-- **C8.** The whole-board census lists every group under its stones' color,
its groups are pairwise disjoint, and together they cover exactly the
occupied cells: a cell is occupied iff it belongs to some returned group. -/
theorem census_partition (b : Board) :
    (∀ gl ∈ (getGroupsAndLiberties b).black, ∀ p ∈ gl.1, cellAt b p.1 p.2 = Cell.black) ∧
    (∀ gl ∈ (getGroupsAndLiberties b).white, ∀ p ∈ gl.1, cellAt b p.1 p.2 = Cell.white) ∧
    List.Pairwise (fun g1 g2 => ∀ x, x ∈ g1.1 → x ∉ g2.1)
      ((getGroupsAndLiberties b).black ++ (getGroupsAndLiberties b).white) ∧
    (∀ p : Nat × Nat, cellAt b p.1 p.2 ≠ Cell.empty ↔
      ∃ gl ∈ (getGroupsAndLiberties b).black ++ (getGroupsAndLiberties b).white, p ∈ gl.1) := by
  have init : CensusInv b [] ∅ ⟨[], []⟩ := by
    refine ⟨?_, ?_, ?_, List.Pairwise.nil, ?_⟩
    · intro x
      constructor
      · intro h
        exact absurd h (Finset.not_mem_empty x)
      · rintro ⟨gl, hgl, _⟩
        cases hgl
    · intro gl hgl
      cases hgl
    · intro gl hgl
      cases hgl
    · intro p hp
      cases hp
  have hres := censusFold b (allCoords b.size) [] ∅ ⟨[], []⟩ init
  rw [List.nil_append] at hres
  have hcen : getGroupsAndLiberties b =
      ((allCoords b.size).foldl (censusStep b) (∅, ⟨[], []⟩)).2 := rfl
  rw [hcen]
  refine ⟨hres.black_color, hres.white_color, hres.disj, ?_⟩
  intro p
  constructor
  · intro hocc
    have hb := lt_size_of_cellAt_ne_empty hocc
    have hmem : p ∈ allCoords b.size := mem_allCoords.mpr hb
    exact (hres.vis_iff p).mp (hres.covered p hmem hocc)
  · rintro ⟨gl, hgl, hp⟩
    rcases List.mem_append.mp hgl with h | h
    · rw [hres.black_color gl h p hp]
      intro hc
      cases hc
    · rw [hres.white_color gl h p hp]
      intro hc
      cases hc

theorem census_partition_witness :
    ((∀ gl ∈ (getGroupsAndLiberties captBoard).black, ∀ p ∈ gl.1,
        cellAt captBoard p.1 p.2 = Cell.black) ∧
     (∀ gl ∈ (getGroupsAndLiberties captBoard).white, ∀ p ∈ gl.1,
        cellAt captBoard p.1 p.2 = Cell.white) ∧
     List.Pairwise (fun g1 g2 => ∀ x, x ∈ g1.1 → x ∉ g2.1)
       ((getGroupsAndLiberties captBoard).black ++ (getGroupsAndLiberties captBoard).white) ∧
     (∀ p : Nat × Nat, cellAt captBoard p.1 p.2 ≠ Cell.empty ↔
       ∃ gl ∈ (getGroupsAndLiberties captBoard).black ++
         (getGroupsAndLiberties captBoard).white, p ∈ gl.1)) ∧
    (getGroupsAndLiberties captBoard).black.length = 3 ∧
    (getGroupsAndLiberties captBoard).white.length = 1 :=
  ⟨census_partition captBoard, rfl, rfl⟩

end Movecat
